import Mathlib

/-!
Verification development for the four-keys release-metrics engine.

The Go sources embedded here are `internal/core/query_releases.go`
(release classification) and `internal/cli/cli.go` (metrics aggregation).
Machine integers (`int`, `int64`, `time.Duration` nanosecond counts and
`time.Time` committer timestamps) are modelled as `Int`; commit committer
timestamps carry unix seconds (the precision git records), and durations
produced by `time.Time.Sub` carry nanoseconds, so second-valued timestamp
differences are multiplied by `1000000000`.  Fallible paths — a failing
external command, a Go slice access that would panic — are modelled with
`Option`.  External collaborators that are not part of this repository's
sources (the git log process, go-git's commit traversal) are modelled from
the spec where noted.
-/

/-- A commit as the engine sees it: committer timestamp (unix seconds) and
message.  Mirrors the fields of `object.Commit` the Go code reads
(`Committer.When`, `Message`, and the hash used only to address the
traversal root, which the linear-history model identifies by the record
itself). -/
structure Commit where
  when : Int
  message : String
deriving DecidableEq, Repr

/-- A tag paired with the commit it points to — `ReleaseSource` from the
core package (field `tag.Name().Short()` is flattened into `tag`). -/
structure ReleaseSource where
  tag : String
  commit : Commit
deriving DecidableEq, Repr

/-- `ReleaseResult`: success flag plus the optional restore duration
(`TimeToRestore *time.Duration`). -/
structure ReleaseResult where
  isSuccess : Bool
  timeToRestore : Option Int
deriving DecidableEq, Repr

/-- The emitted `Release` record. -/
structure Release where
  tag : String
  date : Int
  leadTimeForChanges : Int
  result : ReleaseResult
deriving DecidableEq, Repr

/-- Placeholder used for Go's guarded slice accesses (`releases[len-1]`,
`releases[nextSuccessReleaseIndex]`): the surrounding guards make the
default unreachable, which the invariant lemmas below establish. -/
def emptyRelease : Release :=
  { tag := "", date := 0, leadTimeForChanges := 0
    result := { isSuccess := true, timeToRestore := none } }

/-- The `Option` configuration struct of the core package (renamed: `Option`
is taken by Lean).  The timer and debug callbacks are omitted: they are
no-op side channels that do not influence any result.  The two regexp
fields are modelled as their induced string predicates; `none` models a nil
`*regexp.Regexp`. -/
structure ReleaseOption where
  since : Int
  until_ : Int
  ignorePattern : Option (String → Bool)
  fixCommitPattern : Option (String → Bool)
  isLocalRepository : Bool

/-- Substring test used for the default fix-commit rule
(`strings.Contains(commitMessage, "hotfix")`), written out on character
lists so that it evaluates inside the kernel. -/
def charsStartWith : List Char → List Char → Bool
  | [], _ => true
  | _ :: _, [] => false
  | a :: as, b :: bs => a == b && charsStartWith as bs

/-- `pat` occurs as a contiguous run inside `s`. -/
def charsContain (pat : List Char) : List Char → Bool
  | [] => charsStartWith pat []
  | c :: rest => charsStartWith pat (c :: rest) || charsContain pat rest

/-- `strings.Contains s pat`. -/
def strContains (s pat : String) : Bool :=
  charsContain pat.toList s.toList

/-- `(o *Option) isInTimeRange(time)`: nil receiver accepts everything,
otherwise `time.After(o.Since) && time.Before(o.Until)` — both comparisons
strict. -/
def isInTimeRange (o : Option ReleaseOption) (t : Int) : Bool :=
  match o with
  | none => true
  | some o => decide (o.since < t) && decide (t < o.until_)

/-- `(o *Option) shouldIgnore(name)`. -/
def shouldIgnore (o : Option ReleaseOption) (name : String) : Bool :=
  match o with
  | none => false
  | some o =>
    match o.ignorePattern with
    | none => false
    | some p => p name

/-- `(o *Option) isFixedCommit(commitMessage)`: with no configured pattern a
message containing "hotfix" counts as a fix commit. -/
def isFixedCommit (o : Option ReleaseOption) (commitMessage : String) : Bool :=
  match o with
  | none => strContains commitMessage "hotfix"
  | some o =>
    match o.fixCommitPattern with
    | none => strContains commitMessage "hotfix"
    | some p => p commitMessage

/-! ## The release classifier (`QueryReleases`, query_releases.go lines 89-143)

The loop body is split into `coreStep` (the work done for one release
source that passed both filters) and `queryReleasesStep` (the filters).
The per-release commit-range traversal (lines 126-130 select one of the
two backend functions, both of which consult the repository, an external
collaborator) is abstracted as `trav : Nat -> Bool x Int`, giving for each
source index the `(isRestored, leadTimeForChanges)` pair its traversal
returns; the two backends are embedded separately further below. -/

/-- Loop state of `QueryReleases`: the emitted releases (in emission order,
newest first), `nextSuccessReleaseIndex` (an `int`, initially `-1`) and the
`isRestored` signal carried from the previous iteration's traversal. -/
structure QRState where
  releases : List Release
  nextSuccessReleaseIndex : Int
  isRestored : Bool
deriving Repr

/-- `releases[idx].Result.TimeToRestore = &t`.  Go would panic on an
out-of-range index; every call site is guarded by the invariant that `idx`
names an emitted success (proved below), so the out-of-range branch
is never taken. -/
def setTimeToRestoreAt (rs : List Release) (idx : Nat) (t : Int) : List Release :=
  match rs.get? idx with
  | none => rs
  | some r => rs.set idx { r with result := { r.result with timeToRestore := some t } }

/-- The data of one filtered-in release source as the loop body consumes
it: tag, commit date, and the traversal result for its index. -/
structure EmitItem where
  tag : String
  date : Int
  sig : Bool
  lead : Int
deriving DecidableEq, Repr

/-- Lines 116-140 of query_releases.go: classify one release, close a
failure streak if this success ends one, run the traversal (already
evaluated into `it.sig`, `it.lead`) and append the record. -/
def coreStep (st : QRState) (it : EmitItem) : QRState :=
  let isSuccess := !st.isRestored
  let releases1 :=
    if isSuccess && !st.releases.isEmpty
        && !(st.releases.getLastD emptyRelease).result.isSuccess then
      setTimeToRestoreAt st.releases st.nextSuccessReleaseIndex.toNat
        ((st.releases.getD st.nextSuccessReleaseIndex.toNat emptyRelease).date
          - (st.releases.getLastD emptyRelease).date)
    else st.releases
  let nsri1 := if isSuccess then (releases1.length : Int) else st.nextSuccessReleaseIndex
  { releases := releases1 ++
      [{ tag := it.tag, date := it.date, leadTimeForChanges := it.lead
         result := { isSuccess := isSuccess, timeToRestore := none } }]
    nextSuccessReleaseIndex := nsri1
    isRestored := it.sig }

/-- Folding the loop body over a list of filtered-in items. -/
def coreFold (st : QRState) (items : List EmitItem) : QRState :=
  items.foldl coreStep st

/-- Source index `i` passes both filters (lines 103-111): its tag does not
match the ignore pattern and its commit date is in the time range. -/
def isEmittedIdx (option : Option ReleaseOption) (sources : List ReleaseSource)
    (i : Nat) : Bool :=
  match sources.get? i with
  | none => false
  | some s => !shouldIgnore option s.tag && isInTimeRange option s.commit.when

/-- One full iteration of the loop of `QueryReleases` at source index `i`:
skip on either filter, otherwise run `coreStep`. -/
def queryReleasesStep (trav : Nat → Bool × Int) (option : Option ReleaseOption)
    (sources : List ReleaseSource) (st : QRState) (i : Nat) : QRState :=
  match sources.get? i with
  | none => st
  | some source =>
    if shouldIgnore option source.tag then st
    else if !isInTimeRange option source.commit.when then st
    else coreStep st
      { tag := source.tag, date := source.commit.when
        sig := (trav i).1, lead := (trav i).2 }

/-- `QueryReleases` (lines 89-143), with the per-index traversal result
abstracted as `trav`.  Returns the emitted releases in emission order:
the sources arrive newest first (spec section 4.2), so the first element
is the newest. -/
def QueryReleases (trav : Nat → Bool × Int) (option : Option ReleaseOption)
    (sources : List ReleaseSource) : List Release :=
  ((List.range sources.length).foldl (queryReleasesStep trav option sources)
    { releases := [], nextSuccessReleaseIndex := -1, isRestored := false }).releases

/-- The source indices that pass both filters, in processing order. -/
def emittedIndices (option : Option ReleaseOption) (sources : List ReleaseSource) :
    List Nat :=
  (List.range sources.length).filter (isEmittedIdx option sources)

/-- The `EmitItem` for a filtered-in source index. -/
def itemOf (trav : Nat → Bool × Int) (sources : List ReleaseSource) (i : Nat) :
    EmitItem :=
  match sources.get? i with
  | none => { tag := "", date := 0, sig := (trav i).1, lead := (trav i).2 }
  | some s => { tag := s.tag, date := s.commit.when, sig := (trav i).1, lead := (trav i).2 }

/-- All filtered-in items in processing order. -/
def emitItems (trav : Nat → Bool × Int) (option : Option ReleaseOption)
    (sources : List ReleaseSource) : List EmitItem :=
  (emittedIndices option sources).map (itemOf trav sources)

/-- The success flags the classifier assigns to a run of filtered-in
sources, starting from restore signal `r`: each release is a success iff
the signal computed while processing the previous (next-newer) one
was false. -/
def successSignalsFromB (r : Bool) : List Bool → List Bool
  | [] => []
  | s :: rest => (!r) :: successSignalsFromB s rest

/-! ## Observations on an emitted release list

All of these read only the success flags and dates, never the stored
restore times, so they serve as independent characterizations of what the
classifier stores. -/

/-- The success flag of the release at position `k` (`false` past the
end). -/
def successAtB (rs : List Release) (k : Nat) : Bool :=
  ((rs.get? k).map (fun r => r.result.isSuccess)).getD false

/-- The date of the release at position `k` (`0` past the end). -/
def dateAtD (rs : List Release) (k : Nat) : Int :=
  ((rs.get? k).map (fun r => r.date)).getD 0

/-- The stored `TimeToRestore` of the release at position `k`. -/
def ttrAt (rs : List Release) (k : Nat) : Option Int :=
  match rs.get? k with
  | none => none
  | some r => r.result.timeToRestore

/-- The maximal run of failures immediately below (older than) position
`k` in a newest-first release list. -/
def streakBelow (rs : List Release) (k : Nat) : List Release :=
  (rs.drop (k + 1)).takeWhile (fun r => !r.result.isSuccess)

/-- The restore time position `k` should carry: `some` exactly when the
release at `k` is a success sitting immediately above (newer than) one or
more failures that are in turn bounded below (on the older side) by a
further emitted success; the value is this success's date minus the date
of the oldest failure of the run. -/
def closedStreakValue (rs : List Release) (k : Nat) : Option Int :=
  match rs.get? k with
  | none => none
  | some r =>
    if r.result.isSuccess then
      let rest := rs.drop (k + 1)
      let run := rest.takeWhile (fun x => !x.result.isSuccess)
      if 0 < run.length ∧ run.length < rest.length then
        some (r.date - (run.getLastD emptyRelease).date)
      else none
    else none

/-- All closed-streak restore values, ordered by the position of the
recovering success (newest first). -/
def ttrValues (rs : List Release) : List Int :=
  (List.range rs.length).filterMap (closedStreakValue rs)

/-- Length of the failure run containing the newest release. -/
def leadingFailures (rs : List Release) : Nat :=
  (rs.takeWhile (fun r => !r.result.isSuccess)).length

/-- The oldest failure of the newest-end failure run, if the newest
release is a failure: the failure a chronological (oldest-to-newest) scan
is still holding when it runs out of releases. -/
def pendingAfter (rs : List Release) : Option Release :=
  if leadingFailures rs = 0 then none else rs.get? (leadingFailures rs - 1)

/-- Chronological scan for failure-to-success transitions over a list in
oldest-to-newest order: `p` holds the oldest failure of the currently open
run; each success that closes a run emits its date minus that failure's
date.  Returns the emitted transition durations and the failure still held
at the end. -/
def chronScan : List Release → Option Release → (List Int × Option Release)
  | [], p => ([], p)
  | r :: rest, none =>
    if r.result.isSuccess then chronScan rest none
    else chronScan rest (some r)
  | r :: rest, some f =>
    if r.result.isSuccess then
      let next := chronScan rest none
      ((r.date - f.date) :: next.1, next.2)
    else chronScan rest (some f)

/-- The closed failure-to-success transitions found by scanning a
newest-first release list oldest to newest. -/
def restoreTransitions (rs : List Release) : List Int :=
  (chronScan rs.reverse none).1

/-! ## The metrics aggregator (cli.go) -/

/-- Loop state of `getTimeToRestoreServices`. -/
structure TTRSState where
  sum : Int
  countOfRestoreService : Nat
  failedReleaseIndex : Int
deriving Repr

/-- One iteration of the loop of `getTimeToRestoreServices` (cli.go lines
80-94) at position `i`: remember the first (oldest) failure of a run, and
on the next success add the recovery duration and reset. -/
def ttrsStep (releases : List Release) (st : TTRSState) (i : Nat) : TTRSState :=
  match releases.get? i with
  | none => st
  | some release =>
    if !release.result.isSuccess then
      if st.failedReleaseIndex < 0 then { st with failedReleaseIndex := (i : Int) }
      else st
    else if release.result.isSuccess && st.failedReleaseIndex < 0 then st
    else
      { sum := st.sum + (release.date - dateAtD releases st.failedReleaseIndex.toNat)
        countOfRestoreService := st.countOfRestoreService + 1
        failedReleaseIndex := -1 }

/-- `getTimeToRestoreServices` (cli.go lines 76-99): iterate `i` from
`len-1` down to `0`, then divide the summed durations by the transition
count (`time.Duration` division truncates toward zero, `Int.tdiv`); with no
transition the accumulated sum (zero) is returned as is. -/
def getTimeToRestoreServices (releases : List Release) : Int :=
  let st := (List.range releases.length).reverse.foldl (ttrsStep releases)
    { sum := 0, countOfRestoreService := 0, failedReleaseIndex := -1 }
  if st.countOfRestoreService = 0 then st.sum
  else Int.tdiv st.sum (st.countOfRestoreService : Int)

/-- The values float64 arithmetic can take in `defaultAction`.  Finite
values are carried exactly as rationals: the two divisions the claims are
about (an integer count by an integer day count) are exact in float64 at
the scales involved, and the claims turn on the zero-divisor cases, which
IEEE 754 defines exactly as below. -/
inductive GoFloat where
  | finite (q : ℚ)
  | posInf
  | negInf
  | nan
deriving DecidableEq, Repr

/-- IEEE 754 division of two integer-valued float64 operands, the only
division `defaultAction` performs: `0/0 = NaN`, `x/0 = ±Inf` for `x ≠ 0`,
otherwise the (exactly represented at these scales) finite quotient. -/
def goFloatDiv (a b : Int) : GoFloat :=
  if b = 0 then
    if a = 0 then GoFloat.nan
    else if 0 < a then GoFloat.posInf
    else GoFloat.negInf
  else GoFloat.finite ((a : ℚ) / (b : ℚ))

/-- cli.go line 45: `int(option.Until.Sub(option.Since).Hours() / 24)`.
With second-precision bounds the duration is `(until - since) * 1e9`
nanoseconds and `Hours()/24` divides it by `86400e9`, so the truncation
`int(...)` yields `(until - since)` whole days, truncated toward zero
(`Int.tdiv`); the float64 rounding of the intermediate quotient is ignored
(it cannot affect the zero-window case the claims exercise). -/
def daysCount (option : ReleaseOption) : Int :=
  Int.tdiv (option.until_ - option.since) 86400

/-- cli.go lines 46-47: `float64(len(releases)) / float64(daysCount)`. -/
def deploymentFrequency (option : ReleaseOption) (releases : List Release) : GoFloat :=
  goFloatDiv (releases.length : Int) (daysCount option)

/-! ## The two commit-range traversal backends

The repository is modelled as a linear history: a list of commits, newest
first.  go-git's `traverseCommits` and the external `git log` process are
not part of the sources under verification (the first lives in another
file of the repository, the second is the external tool), so both are
modelled from the spec as noted on each definition. -/

/-- The ancestors of `root` (including `root` itself) in a linear
newest-first history: the suffix starting at `root`. -/
def ancestorsFrom (repo : List Commit) (root : Commit) : List Commit :=
  repo.dropWhile (fun c => !(c == root))

/-- Modelled from the spec: `traverseCommits` (not under src/), the
`ancestorsBetween` capability of section 6 — the commits reachable from
`root`, excluding those reachable from the boundary `pre`, in
reverse-chronological order.  On a linear history this is the segment
strictly above `pre`. -/
def traverseCommits (repo : List Commit) (pre : Option Commit) (root : Commit) :
    List Commit :=
  match pre with
  | none => ancestorsFrom repo root
  | some p => (ancestorsFrom repo root).takeWhile (fun c => !(c == p))

/-- `%s`: the subject (first line) of a commit message. -/
def subjectOf (s : String) : String :=
  String.mk (s.toList.takeWhile (fun c => !(c == '\n')))

/-- One output line of the `git log` invocation of
`getIsRestoredAndLeadTimeForChangesByLocalGit`: because the format
argument is passed as `--format="%ct %s"` without a shell, the quotes are
part of the format and each line is `"⟨unix seconds⟩ ⟨subject⟩"` with
literal double quotes. -/
def gitLogLine (c : Commit) : String :=
  "\"" ++ toString c.when ++ " " ++ subjectOf c.message ++ "\""

/-- Modelled from the spec: the native-tool log invocation of section 6 —
commits reachable from `root` whose committer time is at least the
`--since` bound, newest first (`--date-order` on a linear history),
one formatted line each. -/
def gitLog (repo : List Commit) (sinceSec : Int) (root : Commit) : List String :=
  ((ancestorsFrom repo root).filter (fun c => decide (sinceSec ≤ c.when))).map gitLogLine

/-- The `--since` bound of query_releases.go lines 153-157: the next-older
release's committer time plus one second, or 1900-01-01 (unix seconds
`-2208988800`) when this is the oldest release. -/
def localGitSince (sources : List ReleaseSource) (i : Nat) : Int :=
  match sources.get? (i + 1) with
  | none => -2208988800
  | some pre => pre.commit.when + 1

/-- Group 1 of Go's `regexp.FindStringSubmatch` with pattern
`^[^\d]+(\d+) `: after one or more leading non-digits, a maximal digit run
that must be followed by a space; `none` when the pattern does not match
(Go then returns a nil slice). -/
def findCtSubmatch (s : List Char) : Option (List Char) :=
  let nd := s.takeWhile (fun c => !c.isDigit)
  let rest := s.dropWhile (fun c => !c.isDigit)
  if nd.isEmpty then none
  else
    let ds := rest.takeWhile (fun c => c.isDigit)
    let rest2 := rest.dropWhile (fun c => c.isDigit)
    match rest2 with
    | [] => none
    | c :: _ => if c == ' ' && !ds.isEmpty then some ds else none

/-- The numeric value of a digit run. -/
def digitsToNat (ds : List Char) : Nat :=
  ds.foldl (fun acc c => acc * 10 + (c.toNat - 48)) 0

/-- `getIsRestoredAndLeadTimeForChangesByLocalGit` (query_releases.go lines
147-190).  The external command's outcome is passed in as `cmdOutput`
(`none` models `cmdErr != nil`: missing binary or non-zero exit; `some
lines` models its stdout split into lines).  The result is `none` when the
Go code panics: `matches[1]` on the nil slice `FindStringSubmatch` returns
for a non-matching (non-empty) last line.  A parseable match whose value
overflows `int64` makes `strconv.ParseInt` fail and is absorbed, leaving
lead time zero. -/
def getIsRestoredAndLeadTimeForChangesByLocalGit (cmdOutput : Option (List String))
    (sources : List ReleaseSource) (i : Nat) (option : Option ReleaseOption) :
    Option (Bool × Int) :=
  match sources.get? i with
  | none => none
  | some source =>
    match cmdOutput with
    | none => some (false, 0)
    | some lines =>
      let restoresPreRelease := lines.any (fun l => isFixedCommit option l)
      let lastLine := lines.getLastD ""
      if lastLine = "" then some (restoresPreRelease, 0)
      else
        match findCtSubmatch lastLine.toList with
        | none => none
        | some ds =>
          if digitsToNat ds ≤ 9223372036854775807 then
            some (restoresPreRelease,
              (source.commit.when - (digitsToNat ds : Int)) * 1000000000)
          else some (restoresPreRelease, 0)

/-- `getIsRestoredAndLeadTimeForChangesByGoGit` (query_releases.go lines
195-221): walk the range between this release's commit and the next-older
release's commit, detect the fix pattern on each visited commit's full
message, and derive the lead time from the last (oldest) visited commit. -/
def getIsRestoredAndLeadTimeForChangesByGoGit (repo : List Commit)
    (sources : List ReleaseSource) (i : Nat) (option : Option ReleaseOption) :
    Bool × Int :=
  match sources.get? i with
  | none => (false, 0)
  | some source =>
    let preReleaseCommit := (sources.get? (i + 1)).map (fun s => s.commit)
    let visited := traverseCommits repo preReleaseCommit source.commit
    let restoresPreRelease := visited.any (fun c => isFixedCommit option c.message)
    match visited.getLast? with
    | none => (restoresPreRelease, 0)
    | some lastCommit =>
      (restoresPreRelease, (source.commit.when - lastCommit.when) * 1000000000)

/-! ## Claim statements and concrete inputs

Each `CnClaim` formalizes the literal reading of a claim that the code
refutes; the concrete values below instantiate counterexamples and
witnesses. -/

/-- A traversal whose fix-detection signal is always on. -/
def travAllFix : Nat → Bool × Int := fun _ => (true, 0)

/-- A traversal whose fix-detection signal is always off. -/
def travNoFix : Nat → Bool × Int := fun _ => (false, 0)

/-- A traversal that reports a fix only in the range of source index 0. -/
def travFixAtZero : Nat → Bool × Int := fun i => (i == 0, 0)

/-- Three release sources, newest first. -/
def sourcesThree : List ReleaseSource :=
  [{ tag := "v3", commit := { when := 30, message := "m3" } },
   { tag := "v2", commit := { when := 20, message := "m2" } },
   { tag := "v1", commit := { when := 10, message := "m1" } }]

/-- Two release sources, newest first. -/
def sourcesTwo : List ReleaseSource :=
  [{ tag := "v2", commit := { when := 20, message := "m2" } },
   { tag := "v1", commit := { when := 10, message := "m1" } }]

/-- A single release source. -/
def sourcesOne : List ReleaseSource :=
  [{ tag := "v1", commit := { when := 100, message := "m1" } }]

/-- A window `[10, 20]` given to the engine. -/
def optionTen : ReleaseOption :=
  { since := 10, until_ := 20, ignorePattern := none, fixCommitPattern := none
    isLocalRepository := false }

/-- A window `[10, 30]` given to the engine. -/
def optionTenThirty : ReleaseOption :=
  { since := 10, until_ := 30, ignorePattern := none, fixCommitPattern := none
    isLocalRepository := false }

/-- A zero-length window. -/
def optionZeroWindow : ReleaseOption :=
  { since := 0, until_ := 0, ignorePattern := none, fixCommitPattern := none
    isLocalRepository := false }

/-- A source dated exactly at the window's `since`. -/
def sourcesAtSince : List ReleaseSource :=
  [{ tag := "a", commit := { when := 10, message := "m" } }]

/-- A source strictly inside the window `[10, 30]`. -/
def sourcesInside : List ReleaseSource :=
  [{ tag := "a", commit := { when := 20, message := "m" } }]

/-- Some release (used to exercise the deployment-frequency division). -/
def releaseSample : Release :=
  { tag := "t", date := 5, leadTimeForChanges := 0
    result := { isSuccess := true, timeToRestore := none } }

/-- A two-commit linear history, newest first. -/
def repoTwoCommits : List Commit :=
  [{ when := 200, message := "second" }, { when := 100, message := "init" }]

/-- The newest commit of `repoTwoCommits` as only release source. -/
def sourcesOldestOnly : List ReleaseSource :=
  [{ tag := "v1", commit := { when := 200, message := "second" } }]

/-- A commit whose message mentions the fix token only in the body, not in
the subject line. -/
def bodyFixHead : Commit :=
  { when := 200, message := "fix\n\nhotfix the login" }

/-- A two-commit history headed by `bodyFixHead`. -/
def repoBodyFix : List Commit :=
  [bodyFixHead, { when := 100, message := "init" }]

/-- Release sources tagging both commits of `repoBodyFix`. -/
def sourcesBodyFix : List ReleaseSource :=
  [{ tag := "v2", commit := bodyFixHead },
   { tag := "v1", commit := { when := 100, message := "init" } }]

/-- The first release `QueryReleases` emits from `sourcesThree`. -/
def releaseV3 : Release :=
  { tag := "v3", date := 30, leadTimeForChanges := 0
    result := { isSuccess := true, timeToRestore := none } }

/-- The release `QueryReleases` emits from `sourcesInside`. -/
def releaseInside : Release :=
  { tag := "a", date := 20, leadTimeForChanges := 0
    result := { isSuccess := true, timeToRestore := none } }

/-- Claim C2 as stated: `TimeToRestore` is set on a release iff it is a
success immediately above (newer than) at least one failure, and its value
is the success's date minus the date of the oldest failure of that run. -/
def C2Claim (trav : Nat → Bool × Int) (option : Option ReleaseOption)
    (sources : List ReleaseSource) : Prop :=
  ∀ k,
    ((ttrAt (QueryReleases trav option sources) k).isSome
      = (successAtB (QueryReleases trav option sources) k
          && !successAtB (QueryReleases trav option sources) (k + 1)
          && decide (k + 1 < (QueryReleases trav option sources).length)))
    ∧ ∀ t, ttrAt (QueryReleases trav option sources) k = some t →
        t = dateAtD (QueryReleases trav option sources) k
          - ((streakBelow (QueryReleases trav option sources) k).getLastD emptyRelease).date

/-- Claim C5 as stated: at most one output per input tag, emitted releases
pass the ignore filter and fall in `[since, until)`, and — the half-open
reading — a non-ignored source dated exactly at `since` (or later, before
`until`) is emitted. -/
def C5Claim (trav : Nat → Bool × Int) (opt : ReleaseOption)
    (sources : List ReleaseSource) : Prop :=
  ((QueryReleases trav (some opt) sources).length ≤ sources.length)
  ∧ (∀ r ∈ QueryReleases trav (some opt) sources,
      shouldIgnore (some opt) r.tag = false ∧ opt.since ≤ r.date ∧ r.date < opt.until_)
  ∧ (∀ s ∈ sources, shouldIgnore (some opt) s.tag = false →
      opt.since ≤ s.commit.when → s.commit.when < opt.until_ →
      ∃ r ∈ QueryReleases trav (some opt) sources, r.tag = s.tag)

/-- Claim C7's "in particular" as stated: a release with no next-older
counterpart (the last source) has lead time zero. -/
def C7Claim : Prop :=
  ∀ (repo : List Commit) (sources : List ReleaseSource) (option : Option ReleaseOption),
    sources ≠ [] →
    (getIsRestoredAndLeadTimeForChangesByGoGit repo sources
      (sources.length - 1) option).2 = 0

/-- Claim C10 as stated: the aggregate time-to-restore equals the mean of
the per-release `TimeToRestore` durations the classifier stored. -/
def C10Claim : Prop :=
  ∀ (trav : Nat → Bool × Int) (option : Option ReleaseOption)
    (sources : List ReleaseSource),
    getTimeToRestoreServices (QueryReleases trav option sources)
      = (if ((QueryReleases trav option sources).filterMap
              (fun r => r.result.timeToRestore)).length = 0 then 0
         else Int.tdiv
           ((QueryReleases trav option sources).filterMap
             (fun r => r.result.timeToRestore)).sum
           (((QueryReleases trav option sources).filterMap
             (fun r => r.result.timeToRestore)).length : Int))

/-- The classification-relevant projection of a release: success flag and
date.  `closedStreakValue` and its relatives depend only on this. -/
def flagDate (r : Release) : Bool × Int :=
  (r.result.isSuccess, r.date)

/-- The release the aggregator's `failedReleaseIndex` currently points to
(`none` when the index is negative). -/
def pendingOf (rs : List Release) (st : TTRSState) : Option Release :=
  if st.failedReleaseIndex < 0 then none else rs.get? st.failedReleaseIndex.toNat

/-- A well-formed aggregator state: a non-negative `failedReleaseIndex`
points at an actual element. -/
def ttrsPendingOK (rs : List Release) (st : TTRSState) : Prop :=
  st.failedReleaseIndex < 0 ∨ ∃ f, rs.get? st.failedReleaseIndex.toNat = some f

/-- The classifier loop invariant: an empty output means the pristine
initial state; a non-empty output records in `nextSuccessReleaseIndex` the
position of its most recently emitted success, everything after which is a
failure; and every stored `TimeToRestore` agrees with the closed-streak
characterization. -/
def QRInv (st : QRState) : Prop :=
  (st.releases = [] → st.isRestored = false ∧ st.nextSuccessReleaseIndex = -1)
  ∧ (st.releases ≠ [] → ∃ k : Nat, st.nextSuccessReleaseIndex = (k : Int)
      ∧ k < st.releases.length ∧ successAtB st.releases k = true
      ∧ ∀ j, k < j → successAtB st.releases j = false)
  ∧ (∀ k, ttrAt st.releases k = closedStreakValue st.releases k)

/-! ## Theorems -/

/-- C3: the failure policy of the local-git traversal is not total.  A
failed command invocation is indeed absorbed into `(false, 0)` (second
conjunct), but a command output whose last line carries an unparseable
timestamp — here `123 foo`, which `^[^\d]+(\d+) ` does not match for lack
of a leading non-digit — makes `matches[1]` index the nil slice returned
by `FindStringSubmatch`, a panic (modelled `none`), instead of the claimed
`(false, 0)`. -/
theorem localGit_panics_on_unparseable_timestamp :
    getIsRestoredAndLeadTimeForChangesByLocalGit (some ["123 foo"]) sourcesOne 0 none
      = none
    ∧ getIsRestoredAndLeadTimeForChangesByLocalGit none sourcesOne 0 none
      = some (false, 0) := by
  decide

/-- C4: deployment frequency on a zero-length window is `0/0 = NaN` with
no releases and `n/0 = +Inf` with `n > 0` releases — `defaultAction`
divides by `daysCount` without a zero guard, contradicting the claimed
zero-frequency behavior. -/
theorem deploymentFrequency_zero_window_not_finite :
    deploymentFrequency optionZeroWindow [] = GoFloat.nan
    ∧ deploymentFrequency optionZeroWindow [releaseSample] = GoFloat.posInf := by
  decide

/-- C8: the two traversal strategies disagree on a well-formed input.  On
a two-commit history whose newer commit says "hotfix" only in the message
body, the native-tool strategy scans `--format="%ct %s"` subject lines and
reports no fix, while the in-process strategy matches the full message and
reports one. -/
theorem traversal_strategies_disagree :
    getIsRestoredAndLeadTimeForChangesByLocalGit
      (some (gitLog repoBodyFix (localGitSince sourcesBodyFix 0) bodyFixHead))
      sourcesBodyFix 0 none = some (false, 0)
    ∧ getIsRestoredAndLeadTimeForChangesByGoGit repoBodyFix sourcesBodyFix 0 none
      = (true, 0) := by
  decide

/-- C2, counterexample: with every commit range reporting a fix, the
output is success, failure, failure; the leading success ends a failure
streak (the claim's condition for `TimeToRestore` being set) yet carries
no restore time, because the streak is never bounded below by a processed
success. -/
theorem C2Claim_false : ¬ C2Claim travAllFix none sourcesThree := by
  intro h
  exact absurd (h 0).1 (by decide)

/-- C5, counterexample: a release dated exactly at `since` is claimed to
be included, but `isInTimeRange` requires `time.After(o.Since)` strictly,
so the engine emits nothing for it. -/
theorem C5Claim_false : ¬ C5Claim travNoFix optionTen sourcesAtSince := by
  intro h
  obtain ⟨-, -, h3⟩ := h
  obtain ⟨r, hr, -⟩ :=
    h3 { tag := "a", commit := { when := 10, message := "m" } }
      (by decide) (by decide) (by decide) (by decide)
  have hempty : QueryReleases travNoFix (some optionTen) sourcesAtSince = [] := by
    decide
  rw [hempty] at hr
  exact absurd hr (List.not_mem_nil r)

/-- C7, counterexample: the oldest release source (no next-older
counterpart) does not get lead time zero — the in-process traversal walks
all of its ancestry and reports the distance to the oldest commit
(100 seconds, i.e. `100000000000` nanoseconds, on `repoTwoCommits`). -/
theorem C7Claim_false : ¬ C7Claim := by
  intro h
  exact absurd (h repoTwoCommits sourcesOldestOnly none (by decide)) (by decide)

/-- C10, counterexample: on the output success-then-failure the aggregate
`getTimeToRestoreServices` counts the unanchored oldest failure streak
(value 10), while the classifier stored no `TimeToRestore` at all, so the
claimed mean is 0. -/
theorem C10Claim_false : ¬ C10Claim := by
  intro h
  exact absurd (h travAllFix none sourcesTwo) (by decide)

/-! ### Transfer from the guarded loop to the filtered fold -/

theorem setTimeToRestoreAt_length (rs : List Release) (idx : Nat) (t : Int) :
    (setTimeToRestoreAt rs idx t).length = rs.length := by
  unfold setTimeToRestoreAt
  cases rs.get? idx
  · rfl
  · exact List.length_set ..

theorem setTimeToRestoreAt_map (rs : List Release) (idx : Nat) (t : Int)
    (g : Release → α)
    (hg : ∀ r s, g { r with result := { r.result with timeToRestore := s } } = g r) :
    (setTimeToRestoreAt rs idx t).map g = rs.map g := by
  unfold setTimeToRestoreAt
  cases h : rs.get? idx with
  | none => rfl
  | some r =>
    rw [List.map_set]
    have hi : idx < rs.length := by
      have := List.get?_eq_some.mp h
      exact this.choose
    apply List.ext_get?
    intro n
    rcases eq_or_ne idx n with rfl | hne
    · rw [List.get?_set_eq_of_lt _ (by simpa using hi), hg,
        List.get?_map, h]
      rfl
    · rw [List.get?_set_ne _ _ hne]

theorem itemOf_sig (trav : Nat → Bool × Int) (sources : List ReleaseSource) (i : Nat) :
    (itemOf trav sources i).sig = (trav i).1 := by
  unfold itemOf
  cases sources.get? i <;> rfl

theorem queryReleasesStep_eq (trav : Nat → Bool × Int) (option : Option ReleaseOption)
    (sources : List ReleaseSource) (st : QRState) (i : Nat) :
    queryReleasesStep trav option sources st i
      = if isEmittedIdx option sources i then coreStep st (itemOf trav sources i)
        else st := by
  unfold queryReleasesStep isEmittedIdx itemOf
  cases sources.get? i with
  | none => rfl
  | some s =>
    cases hig : shouldIgnore option s.tag <;>
      cases hir : isInTimeRange option s.commit.when <;>
      simp only [hig, hir, Bool.not_true, Bool.not_false, Bool.true_and,
        Bool.false_and, Bool.and_true, Bool.and_false, if_true, if_false,
        Bool.false_eq_true, ite_false, ite_true]

theorem foldl_queryReleasesStep_eq_filter (trav : Nat → Bool × Int)
    (option : Option ReleaseOption) (sources : List ReleaseSource) (l : List Nat)
    (st : QRState) :
    l.foldl (queryReleasesStep trav option sources) st
      = (l.filter (isEmittedIdx option sources)).foldl
          (fun st i => coreStep st (itemOf trav sources i)) st := by
  induction l generalizing st with
  | nil => rfl
  | cons i rest ih =>
    rw [List.foldl_cons, queryReleasesStep_eq, List.filter_cons]
    cases h : isEmittedIdx option sources i with
    | false => simp only [Bool.false_eq_true, if_false]; exact ih st
    | true => simp only [if_true, List.foldl_cons]; exact ih _

/-- `QueryReleases` is the clean fold of the loop body over the
filtered-in items. -/
theorem QueryReleases_eq_coreFold (trav : Nat → Bool × Int)
    (option : Option ReleaseOption) (sources : List ReleaseSource) :
    QueryReleases trav option sources
      = (coreFold { releases := [], nextSuccessReleaseIndex := -1, isRestored := false }
          (emitItems trav option sources)).releases := by
  unfold QueryReleases coreFold emitItems emittedIndices
  rw [foldl_queryReleasesStep_eq_filter, List.foldl_map]

/-! ### Shape of the fold's output -/

theorem coreStep_map_flag (st : QRState) (it : EmitItem) :
    (coreStep st it).releases.map (fun r => r.result.isSuccess)
      = st.releases.map (fun r => r.result.isSuccess) ++ [!st.isRestored] := by
  unfold coreStep
  simp only [List.map_append]
  split
  · rw [setTimeToRestoreAt_map]
    · rfl
    · intro r s
      rfl
  · rfl

theorem coreStep_map_tagDate (st : QRState) (it : EmitItem) :
    (coreStep st it).releases.map (fun r => (r.tag, r.date))
      = st.releases.map (fun r => (r.tag, r.date)) ++ [(it.tag, it.date)] := by
  unfold coreStep
  simp only [List.map_append]
  split
  · rw [setTimeToRestoreAt_map]
    · rfl
    · intro r s
      rfl
  · rfl

theorem coreStep_length (st : QRState) (it : EmitItem) :
    (coreStep st it).releases.length = st.releases.length + 1 := by
  unfold coreStep
  simp only [List.length_append, List.length_singleton]
  split
  · rw [setTimeToRestoreAt_length]
  · rfl

theorem coreStep_isRestored (st : QRState) (it : EmitItem) :
    (coreStep st it).isRestored = it.sig := rfl

theorem coreFold_length (st : QRState) (items : List EmitItem) :
    (coreFold st items).releases.length = st.releases.length + items.length := by
  induction items generalizing st with
  | nil => rfl
  | cons it rest ih =>
    show (coreFold (coreStep st it) rest).releases.length = _
    rw [ih, coreStep_length, List.length_cons]
    omega

theorem coreFold_map_flag (st : QRState) (items : List EmitItem) :
    (coreFold st items).releases.map (fun r => r.result.isSuccess)
      = st.releases.map (fun r => r.result.isSuccess)
        ++ successSignalsFromB st.isRestored (items.map (fun it => it.sig)) := by
  induction items generalizing st with
  | nil => simp [coreFold, successSignalsFromB]
  | cons it rest ih =>
    show (coreFold (coreStep st it) rest).releases.map _ = _
    rw [ih, coreStep_map_flag, coreStep_isRestored, List.map_cons]
    show _ = _ ++ ((!st.isRestored) :: successSignalsFromB it.sig _)
    rw [List.append_assoc]
    rfl

theorem coreFold_map_tagDate (st : QRState) (items : List EmitItem) :
    (coreFold st items).releases.map (fun r => (r.tag, r.date))
      = st.releases.map (fun r => (r.tag, r.date))
        ++ items.map (fun it => (it.tag, it.date)) := by
  induction items generalizing st with
  | nil => simp [coreFold]
  | cons it rest ih =>
    show (coreFold (coreStep st it) rest).releases.map _ = _
    rw [ih, coreStep_map_tagDate, List.map_cons, List.append_assoc]
    rfl

/-! ### Success flags of the output -/

theorem successSignalsFromB_length (r : Bool) (bs : List Bool) :
    (successSignalsFromB r bs).length = bs.length := by
  induction bs generalizing r with
  | nil => rfl
  | cons s rest ih => simp [successSignalsFromB, ih]

theorem successSignalsFromB_get?_succ (bs : List Bool) (r : Bool) (j : Nat)
    (h : j + 1 < bs.length) :
    (successSignalsFromB r bs).get? (j + 1) = (bs.get? j).map (fun b => !b) := by
  induction bs generalizing r j with
  | nil => simp at h
  | cons s rest ih =>
    show (successSignalsFromB s rest).get? j = _
    cases j with
    | zero =>
      cases rest with
      | nil => simp at h
      | cons t tt => rfl
    | succ j' =>
      rw [ih s j' (by simpa using h)]
      rfl

theorem isEmittedIdx_spec (option : Option ReleaseOption) (sources : List ReleaseSource)
    (i : Nat) (h : isEmittedIdx option sources i = true) :
    ∃ s, sources.get? i = some s ∧ shouldIgnore option s.tag = false
      ∧ isInTimeRange option s.commit.when = true := by
  unfold isEmittedIdx at h
  cases hs : sources.get? i with
  | none => rw [hs] at h; exact absurd h (by simp)
  | some s =>
    rw [hs] at h
    refine ⟨s, rfl, ?_, ?_⟩
    · have := (Bool.and_eq_true _ _).mp h
      simpa using this.1
    · exact ((Bool.and_eq_true _ _).mp h).2

theorem itemOf_of_get? (trav : Nat → Bool × Int) (sources : List ReleaseSource)
    (i : Nat) (s : ReleaseSource) (h : sources.get? i = some s) :
    itemOf trav sources i
      = { tag := s.tag, date := s.commit.when, sig := (trav i).1, lead := (trav i).2 } := by
  unfold itemOf
  rw [h]

theorem emitItems_sigs (trav : Nat → Bool × Int) (option : Option ReleaseOption)
    (sources : List ReleaseSource) :
    (emitItems trav option sources).map (fun it => it.sig)
      = (emittedIndices option sources).map (fun e => (trav e).1) := by
  unfold emitItems
  rw [List.map_map]
  apply List.map_congr_left
  intro e _
  exact itemOf_sig trav sources e

theorem queryReleases_length_eq (trav : Nat → Bool × Int) (option : Option ReleaseOption)
    (sources : List ReleaseSource) :
    (QueryReleases trav option sources).length = (emittedIndices option sources).length := by
  rw [QueryReleases_eq_coreFold, coreFold_length]
  simp [emitItems]

theorem queryReleases_map_flag (trav : Nat → Bool × Int) (option : Option ReleaseOption)
    (sources : List ReleaseSource) :
    (QueryReleases trav option sources).map (fun r => r.result.isSuccess)
      = successSignalsFromB false
          ((emittedIndices option sources).map (fun e => (trav e).1)) := by
  rw [QueryReleases_eq_coreFold, coreFold_map_flag, ← emitItems_sigs]
  rfl

theorem queryReleases_map_tagDate (trav : Nat → Bool × Int) (option : Option ReleaseOption)
    (sources : List ReleaseSource) :
    (QueryReleases trav option sources).map (fun r => (r.tag, r.date))
      = (emittedIndices option sources).map
          (fun e => ((itemOf trav sources e).tag, (itemOf trav sources e).date)) := by
  rw [QueryReleases_eq_coreFold, coreFold_map_tagDate]
  show (emitItems trav option sources).map _ = _
  unfold emitItems
  rw [List.map_map]
  rfl

/-- C9: the first release `QueryReleases` emits is always a success — the
`isRestored` signal starts out `false`, so the first filtered-in source is
classified `!false`. -/
theorem queryReleases_head_success (trav : Nat → Bool × Int)
    (option : Option ReleaseOption) (sources : List ReleaseSource) (r : Release)
    (h : (QueryReleases trav option sources).head? = some r) :
    r.result.isSuccess = true := by
  have hm := queryReleases_map_flag trav option sources
  cases hout : QueryReleases trav option sources with
  | nil => rw [hout] at h; exact absurd h (by simp)
  | cons a l =>
    rw [hout] at h hm
    have hr : r = a := by simpa using h.symm
    subst hr
    cases hes : (emittedIndices option sources).map (fun e => (trav e).1) with
    | nil => rw [hes] at hm; exact absurd hm (by simp [successSignalsFromB])
    | cons s ss =>
      rw [hes] at hm
      have : r.result.isSuccess = !false := by
        have := congrArg List.head? hm
        simpa [successSignalsFromB] using this
      simpa using this

/-- C9, witness: on `sourcesThree` with every range reporting a fix, the
head release exists and is a success. -/
theorem queryReleases_head_success_witness :
    (QueryReleases travAllFix none sourcesThree).head? = some releaseV3
    ∧ releaseV3.result.isSuccess = true := by
  refine ⟨by decide, queryReleases_head_success travAllFix none sourcesThree releaseV3 (by decide)⟩

/-- C1: the success flag of each emitted release (beyond the first) is the
negation of the fix-detection signal the traversal computed while
processing the next-newer emitted release. -/
theorem queryReleases_success_negates_prev_signal (trav : Nat → Bool × Int)
    (option : Option ReleaseOption) (sources : List ReleaseSource) (j : Nat)
    (h : j + 1 < (QueryReleases trav option sources).length) :
    ((QueryReleases trav option sources).get? (j + 1)).map (fun r => r.result.isSuccess)
      = ((emittedIndices option sources).get? j).map (fun e => !(trav e).1) := by
  have hm := queryReleases_map_flag trav option sources
  have hlen := queryReleases_length_eq trav option sources
  have hL : j + 1 < ((emittedIndices option sources).map (fun e => (trav e).1)).length := by
    rw [List.length_map]
    omega
  calc ((QueryReleases trav option sources).get? (j + 1)).map (fun r => r.result.isSuccess)
      = ((QueryReleases trav option sources).map (fun r => r.result.isSuccess)).get? (j + 1) := by
        rw [List.get?_map]
    _ = (((emittedIndices option sources).map (fun e => (trav e).1)).get? j).map (fun b => !b) := by
        rw [hm]
        exact successSignalsFromB_get?_succ _ false j hL
    _ = ((emittedIndices option sources).get? j).map (fun e => !(trav e).1) := by
        rw [List.get?_map, Option.map_map]
        rfl

/-- C1, witness: with both of two sources emitted and the newer range
reporting a fix, the second release's flag is the negated signal. -/
theorem queryReleases_success_negates_prev_signal_witness :
    0 + 1 < (QueryReleases travAllFix none sourcesTwo).length
    ∧ ((QueryReleases travAllFix none sourcesTwo).get? (0 + 1)).map (fun r => r.result.isSuccess)
        = ((emittedIndices none sourcesTwo).get? 0).map (fun e => !(travAllFix e).1) :=
  ⟨by decide,
   queryReleases_success_negates_prev_signal travAllFix none sourcesTwo 0 (by decide)⟩

/-- C5, amended: at most one output per input tag, and every emitted
release passes the ignore filter and is dated strictly inside the open
window `(since, until)` — both endpoints excluded, since `isInTimeRange`
tests `After(Since)` and `Before(Until)` strictly. -/
theorem queryReleases_emits_within_open_window (trav : Nat → Bool × Int)
    (opt : ReleaseOption) (sources : List ReleaseSource) :
    (QueryReleases trav (some opt) sources).length ≤ sources.length
    ∧ ∀ r ∈ QueryReleases trav (some opt) sources,
        shouldIgnore (some opt) r.tag = false
        ∧ opt.since < r.date ∧ r.date < opt.until_ := by
  constructor
  · rw [queryReleases_length_eq]
    calc (emittedIndices (some opt) sources).length
        ≤ (List.range sources.length).length := List.length_filter_le _ _
      _ = sources.length := List.length_range _
  · intro r hr
    have hmem : (r.tag, r.date) ∈
        (QueryReleases trav (some opt) sources).map (fun r => (r.tag, r.date)) :=
      List.mem_map_of_mem _ hr
    rw [queryReleases_map_tagDate] at hmem
    obtain ⟨e, he, heq⟩ := List.mem_map.mp hmem
    have hemit : isEmittedIdx (some opt) sources e = true := List.of_mem_filter he
    obtain ⟨s, hs, hig, hir⟩ := isEmittedIdx_spec _ _ _ hemit
    rw [itemOf_of_get? trav sources e s hs] at heq
    have htag : s.tag = r.tag := congrArg Prod.fst heq
    have hdate : s.commit.when = r.date := congrArg Prod.snd heq
    refine ⟨htag ▸ hig, ?_, ?_⟩
    · have := (Bool.and_eq_true _ _).mp hir
      have h1 : decide (opt.since < s.commit.when) = true := this.1
      rw [← hdate]
      exact of_decide_eq_true h1
    · have := (Bool.and_eq_true _ _).mp hir
      have h2 : decide (s.commit.when < opt.until_) = true := this.2
      rw [← hdate]
      exact of_decide_eq_true h2

/-- C5, amended, witness: a source strictly inside the window is emitted
and satisfies the open-window bounds. -/
theorem queryReleases_emits_within_open_window_witness :
    (QueryReleases travNoFix (some optionTenThirty) sourcesInside).length ≤ 1
    ∧ (shouldIgnore (some optionTenThirty) releaseInside.tag = false
        ∧ optionTenThirty.since < releaseInside.date
        ∧ releaseInside.date < optionTenThirty.until_) :=
  ⟨(queryReleases_emits_within_open_window travNoFix optionTenThirty sourcesInside).1,
   (queryReleases_emits_within_open_window travNoFix optionTenThirty sourcesInside).2
     releaseInside (by decide)⟩

/-- C7, amended: a release with no next-older counterpart does not get
lead time zero; the traversal walks all of its ancestry, so its lead time
is its date minus the committer time of the repository's oldest commit
(in nanoseconds), zero only when its commit is the oldest one. -/
theorem goGit_oldest_release_lead_time (repo : List Commit)
    (sources : List ReleaseSource) (i : Nat) (option : Option ReleaseOption)
    (source : ReleaseSource) (h1 : sources.get? i = some source)
    (h2 : sources.get? (i + 1) = none) (h3 : source.commit ∈ repo) :
    ∃ last, repo.getLast? = some last
      ∧ (getIsRestoredAndLeadTimeForChangesByGoGit repo sources i option).2
          = (source.commit.when - last.when) * 1000000000 := by
  have hrne : repo ≠ [] := by
    intro hnil
    rw [hnil] at h3
    exact absurd h3 (List.not_mem_nil _)
  obtain ⟨last, hlast⟩ : ∃ last, repo.getLast? = some last := by
    cases hg : repo.getLast? with
    | none => exact absurd (List.getLast?_eq_none_iff.mp hg) hrne
    | some x => exact ⟨x, rfl⟩
  have hne : ancestorsFrom repo source.commit ≠ [] := by
    unfold ancestorsFrom
    intro hnil
    have := List.dropWhile_eq_nil_iff.mp hnil source.commit h3
    simp at this
  have hvlast : (ancestorsFrom repo source.commit).getLast? = some last := by
    have hsplit := List.takeWhile_append_dropWhile
      (fun c => !(c == source.commit)) repo
    have : repo.getLast? = (ancestorsFrom repo source.commit).getLast? := by
      conv_lhs => rw [← hsplit]
      rw [List.getLast?_append]
      unfold ancestorsFrom
      cases hd : (repo.dropWhile (fun c => !(c == source.commit))).getLast? with
      | none =>
        exact absurd (List.getLast?_eq_none_iff.mp hd) hne
      | some y => rfl
    rw [← this, hlast]
  refine ⟨last, hlast, ?_⟩
  unfold getIsRestoredAndLeadTimeForChangesByGoGit
  rw [h1, h2]
  show (match (traverseCommits repo none source.commit).getLast? with
    | none => (_, 0)
    | some lastCommit =>
        (_, (source.commit.when - lastCommit.when) * 1000000000) : Bool × Int).2 = _
  have : traverseCommits repo none source.commit = ancestorsFrom repo source.commit := rfl
  rw [this, hvlast]

/-- C7, amended, witness: on the two-commit history the sole (oldest)
release's lead time is 100 seconds in nanoseconds. -/
theorem goGit_oldest_release_lead_time_witness :
    ∃ last, repoTwoCommits.getLast? = some last
      ∧ (getIsRestoredAndLeadTimeForChangesByGoGit repoTwoCommits sourcesOldestOnly 0 none).2
          = ((200 : Int) - last.when) * 1000000000 :=
  goGit_oldest_release_lead_time repoTwoCommits sourcesOldestOnly 0 none
    { tag := "v1", commit := { when := 200, message := "second" } }
    (by decide) (by decide) (by decide)

/-! ### Pointwise facts about the observation functions -/

theorem successAtB_append_lt (rs : List Release) (x : Release) (k : Nat)
    (hk : k < rs.length) : successAtB (rs ++ [x]) k = successAtB rs k := by
  unfold successAtB
  rw [List.get?_eq_getElem?, List.get?_eq_getElem?, List.getElem?_append_left hk]

theorem successAtB_append_last (rs : List Release) (x : Release) :
    successAtB (rs ++ [x]) rs.length = x.result.isSuccess := by
  unfold successAtB
  rw [List.get?_eq_getElem?, List.getElem?_concat_length]
  rfl

theorem successAtB_past (rs : List Release) (k : Nat) (hk : rs.length ≤ k) :
    successAtB rs k = false := by
  unfold successAtB
  rw [List.get?_eq_getElem?, List.getElem?_eq_none hk]
  rfl

theorem dateAtD_append_lt (rs : List Release) (x : Release) (k : Nat)
    (hk : k < rs.length) : dateAtD (rs ++ [x]) k = dateAtD rs k := by
  unfold dateAtD
  rw [List.get?_eq_getElem?, List.get?_eq_getElem?, List.getElem?_append_left hk]

theorem ttrAt_append_lt (rs : List Release) (x : Release) (k : Nat)
    (hk : k < rs.length) : ttrAt (rs ++ [x]) k = ttrAt rs k := by
  unfold ttrAt
  rw [List.get?_eq_getElem?, List.get?_eq_getElem?, List.getElem?_append_left hk]

theorem ttrAt_append_last (rs : List Release) (x : Release) :
    ttrAt (rs ++ [x]) rs.length = x.result.timeToRestore := by
  unfold ttrAt
  rw [List.get?_eq_getElem?, List.getElem?_concat_length]

theorem ttrAt_past (rs : List Release) (k : Nat) (hk : rs.length ≤ k) :
    ttrAt rs k = none := by
  unfold ttrAt
  rw [List.get?_eq_getElem?, List.getElem?_eq_none hk]

theorem setTimeToRestoreAt_get?_ne (rs : List Release) (i : Nat) (t : Int) (k : Nat)
    (hk : i ≠ k) : (setTimeToRestoreAt rs i t).get? k = rs.get? k := by
  unfold setTimeToRestoreAt
  cases rs.get? i with
  | none => rfl
  | some r =>
    rw [List.get?_eq_getElem?, List.get?_eq_getElem?, List.getElem?_set_ne hk]

theorem setTimeToRestoreAt_get?_eq (rs : List Release) (i : Nat) (t : Int)
    (r : Release) (hr : rs.get? i = some r) :
    (setTimeToRestoreAt rs i t).get? i
      = some { r with result := { r.result with timeToRestore := some t } } := by
  unfold setTimeToRestoreAt
  rw [hr]
  have hi : i < rs.length := (List.get?_eq_some.mp hr).choose
  rw [List.get?_eq_getElem?, List.getElem?_set_eq_of_lt _ (by simpa using hi)]

theorem setTimeToRestoreAt_of_none (rs : List Release) (i : Nat) (t : Int)
    (h : rs.get? i = none) : setTimeToRestoreAt rs i t = rs := by
  unfold setTimeToRestoreAt
  rw [h]

theorem successAtB_setTTR (rs : List Release) (i : Nat) (t : Int) (k : Nat) :
    successAtB (setTimeToRestoreAt rs i t) k = successAtB rs k := by
  rcases eq_or_ne i k with rfl | hne
  · cases hr : rs.get? i with
    | none => rw [setTimeToRestoreAt_of_none rs i t hr]
    | some r =>
      unfold successAtB
      rw [setTimeToRestoreAt_get?_eq rs i t r hr, hr]
      rfl
  · unfold successAtB
    rw [setTimeToRestoreAt_get?_ne rs i t k hne]

theorem dateAtD_setTTR (rs : List Release) (i : Nat) (t : Int) (k : Nat) :
    dateAtD (setTimeToRestoreAt rs i t) k = dateAtD rs k := by
  rcases eq_or_ne i k with rfl | hne
  · cases hr : rs.get? i with
    | none => rw [setTimeToRestoreAt_of_none rs i t hr]
    | some r =>
      unfold dateAtD
      rw [setTimeToRestoreAt_get?_eq rs i t r hr, hr]
      rfl
  · unfold dateAtD
    rw [setTimeToRestoreAt_get?_ne rs i t k hne]

theorem ttrAt_setTTR_ne (rs : List Release) (i : Nat) (t : Int) (k : Nat) (hne : i ≠ k) :
    ttrAt (setTimeToRestoreAt rs i t) k = ttrAt rs k := by
  unfold ttrAt
  rw [setTimeToRestoreAt_get?_ne rs i t k hne]

theorem ttrAt_setTTR_eq (rs : List Release) (i : Nat) (t : Int) (r : Release)
    (hr : rs.get? i = some r) :
    ttrAt (setTimeToRestoreAt rs i t) i = some t := by
  unfold ttrAt
  rw [setTimeToRestoreAt_get?_eq rs i t r hr]

/-! ### `closedStreakValue` only reads flags and dates -/

theorem closedStreakValue_shift (x : Release) (l : List Release) (k : Nat) :
    closedStreakValue (x :: l) (k + 1) = closedStreakValue l k := rfl

theorem takeWhile_fail_map_congr (l l' : List Release)
    (h : l.map flagDate = l'.map flagDate) :
    (l.takeWhile (fun r => !r.result.isSuccess)).map flagDate
      = (l'.takeWhile (fun r => !r.result.isSuccess)).map flagDate := by
  induction l generalizing l' with
  | nil =>
    cases l' with
    | nil => rfl
    | cons b m' => simp at h
  | cons a m ih =>
    cases l' with
    | nil => simp at h
    | cons b m' =>
      simp only [List.map_cons, List.cons.injEq] at h
      obtain ⟨hab, hm⟩ := h
      have hflag : a.result.isSuccess = b.result.isSuccess := congrArg Prod.fst hab
      rw [List.takeWhile_cons, List.takeWhile_cons, ← hflag]
      cases hs : a.result.isSuccess with
      | true => simp
      | false =>
        simp only [Bool.not_false, if_true, List.map_cons]
        rw [ih m' hm, hab]

theorem getLastD_date_congr (m m' : List Release)
    (h : m.map flagDate = m'.map flagDate) :
    (m.getLastD emptyRelease).date = (m'.getLastD emptyRelease).date := by
  have h2 := congrArg List.getLast? h
  rw [List.getLast?_map, List.getLast?_map] at h2
  rw [List.getLastD_eq_getLast?, List.getLastD_eq_getLast?]
  cases hm : m.getLast? with
  | none =>
    rw [hm] at h2
    cases hm' : m'.getLast? with
    | none => rfl
    | some y => rw [hm'] at h2; exact absurd h2 (by simp)
  | some y =>
    rw [hm] at h2
    cases hm' : m'.getLast? with
    | none => rw [hm'] at h2; exact absurd h2 (by simp)
    | some y' =>
      rw [hm'] at h2
      simp only [Option.map_some', Option.some.injEq] at h2
      have : y.date = y'.date := congrArg Prod.snd h2
      simpa using this

theorem closedStreakValue_congr (l l' : List Release)
    (h : l.map flagDate = l'.map flagDate) (k : Nat) :
    closedStreakValue l k = closedStreakValue l' k := by
  induction l generalizing l' k with
  | nil =>
    cases l' with
    | nil => rfl
    | cons b m' => simp at h
  | cons a m ih =>
    cases l' with
    | nil => simp at h
    | cons b m' =>
      simp only [List.map_cons, List.cons.injEq] at h
      obtain ⟨hab, hm⟩ := h
      cases k with
      | succ k' =>
        rw [closedStreakValue_shift, closedStreakValue_shift]
        exact ih m' hm k'
      | zero =>
        have hflag : a.result.isSuccess = b.result.isSuccess := congrArg Prod.fst hab
        have hdate : a.date = b.date := congrArg Prod.snd hab
        have hrunmap := takeWhile_fail_map_congr m m' hm
        have hrunlen : (m.takeWhile (fun r => !r.result.isSuccess)).length
            = (m'.takeWhile (fun r => !r.result.isSuccess)).length := by
          have := congrArg List.length hrunmap
          simpa using this
        have hlen : m.length = m'.length := by
          have := congrArg List.length hm
          simpa using this
        have hlast := getLastD_date_congr _ _ hrunmap
        show closedStreakValue (a :: m) 0 = closedStreakValue (b :: m') 0
        unfold closedStreakValue
        simp only [List.get?_cons_zero, List.drop_succ_cons, List.drop_zero]
        rw [← hflag, hrunlen, hlen, hdate, hlast]

/-! ### How appending a release changes the closed streaks -/

theorem closedStreakValue_past (rs : List Release) (k : Nat) (hk : rs.length ≤ k) :
    closedStreakValue rs k = none := by
  unfold closedStreakValue
  rw [List.get?_eq_getElem?, List.getElem?_eq_none hk]

theorem closedStreakValue_append_self (rs : List Release) (x : Release) :
    closedStreakValue (rs ++ [x]) rs.length = none := by
  unfold closedStreakValue
  rw [List.get?_eq_getElem?, List.getElem?_concat_length]
  have hdrop : (rs ++ [x]).drop (rs.length + 1) = [] :=
    List.drop_eq_nil_of_le (by simp)
  rw [hdrop]
  simp

theorem closedStreakValue_none_of_fail (rs : List Release) (k : Nat)
    (h : successAtB rs k = false) : closedStreakValue rs k = none := by
  unfold closedStreakValue
  cases hr : rs.get? k with
  | none => rfl
  | some r =>
    have hflag : r.result.isSuccess = false := by
      unfold successAtB at h
      rw [hr] at h
      simpa using h
    simp [hflag]

theorem get?_append_lt (rs : List Release) (x : Release) (k : Nat)
    (hk : k < rs.length) : (rs ++ [x]).get? k = rs.get? k := by
  rw [List.get?_eq_getElem?, List.get?_eq_getElem?, List.getElem?_append_left hk]

theorem closedStreakValue_append_bounded (rs : List Release) (x : Release) (k : Nat)
    (hk : k < rs.length)
    (hb : ((rs.drop (k + 1)).takeWhile (fun r => !r.result.isSuccess)).length
        < (rs.drop (k + 1)).length) :
    closedStreakValue (rs ++ [x]) k = closedStreakValue rs k := by
  unfold closedStreakValue
  rw [get?_append_lt rs x k hk]
  cases hr : rs.get? k with
  | none => rfl
  | some r =>
    cases hs : r.result.isSuccess with
    | false => simp [hs]
    | true =>
      simp only [hs, if_true]
      have hne' : ¬ (((rs.drop (k + 1)).takeWhile (fun r => !r.result.isSuccess)).length
          = (rs.drop (k + 1)).length) := by omega
      rw [List.drop_append_of_le_length (by omega), List.takeWhile_append, if_neg hne']
      have hcond : (0 < ((rs.drop (k + 1)).takeWhile (fun r => !r.result.isSuccess)).length
          ∧ ((rs.drop (k + 1)).takeWhile (fun r => !r.result.isSuccess)).length
              < (rs.drop (k + 1) ++ [x]).length)
          ↔ (0 < ((rs.drop (k + 1)).takeWhile (fun r => !r.result.isSuccess)).length
          ∧ ((rs.drop (k + 1)).takeWhile (fun r => !r.result.isSuccess)).length
              < (rs.drop (k + 1)).length) := by
        rw [List.length_append]
        constructor
        · intro hc; exact ⟨hc.1, by omega⟩
        · intro hc; exact ⟨hc.1, by omega⟩
      rw [if_congr hcond rfl rfl]

theorem closedStreakValue_append_failure (rs : List Release) (x : Release) (k : Nat)
    (hk : k < rs.length) (hx : x.result.isSuccess = false) :
    closedStreakValue (rs ++ [x]) k = closedStreakValue rs k := by
  have hle : ((rs.drop (k + 1)).takeWhile (fun r => !r.result.isSuccess)).length
      ≤ (rs.drop (k + 1)).length :=
    (List.takeWhile_prefix _).length_le
  rcases lt_or_eq_of_le hle with hlt | heq
  · exact closedStreakValue_append_bounded rs x k hk hlt
  · unfold closedStreakValue
    rw [get?_append_lt rs x k hk]
    cases hr : rs.get? k with
    | none => rfl
    | some r =>
      cases hs : r.result.isSuccess with
      | false => simp [hs]
      | true =>
        simp only [hs, if_true]
        have hxrun : List.takeWhile (fun r => !r.result.isSuccess) [x] = [x] := by
          simp [List.takeWhile_cons, hx]
        rw [List.drop_append_of_le_length (by omega), List.takeWhile_append,
          if_pos heq, hxrun]
        have hno1 : ¬ (0 < (rs.drop (k + 1) ++ [x]).length
            ∧ (rs.drop (k + 1) ++ [x]).length < (rs.drop (k + 1) ++ [x]).length) := by
          omega
        have hno2 : ¬ (0 < ((rs.drop (k + 1)).takeWhile
              (fun r => !r.result.isSuccess)).length
            ∧ ((rs.drop (k + 1)).takeWhile (fun r => !r.result.isSuccess)).length
              < (rs.drop (k + 1)).length) := by
          omega
        rw [if_neg hno1, if_neg hno2]

theorem closedStreakValue_append_adjacent (rs : List Release) (x : Release) (k : Nat)
    (hk : k < rs.length) (hd : rs.drop (k + 1) = []) (hx : x.result.isSuccess = true) :
    closedStreakValue (rs ++ [x]) k = closedStreakValue rs k := by
  unfold closedStreakValue
  rw [get?_append_lt rs x k hk]
  cases hr : rs.get? k with
  | none => rfl
  | some r =>
    cases hs : r.result.isSuccess with
    | false => simp [hs]
    | true =>
      simp only [hs, if_true]
      rw [List.drop_append_of_le_length (by omega), hd]
      simp [List.takeWhile_cons, hx]

theorem closedStreakValue_append_flip (rs : List Release) (x : Release) (k : Nat)
    (hk : k < rs.length) (hx : x.result.isSuccess = true)
    (hall : (rs.drop (k + 1)).takeWhile (fun r => !r.result.isSuccess) = rs.drop (k + 1))
    (hne : rs.drop (k + 1) ≠ []) (r : Release) (hr : rs.get? k = some r)
    (hs : r.result.isSuccess = true) :
    closedStreakValue (rs ++ [x]) k
      = some (r.date - ((rs.drop (k + 1)).getLastD emptyRelease).date)
    ∧ closedStreakValue rs k = none := by
  have heq' : ((rs.drop (k + 1)).takeWhile (fun r => !r.result.isSuccess)).length
      = (rs.drop (k + 1)).length := by rw [hall]
  constructor
  · unfold closedStreakValue
    rw [get?_append_lt rs x k hk, hr]
    simp only [hs, if_true]
    have hxrun : List.takeWhile (fun r => !r.result.isSuccess) [x] = [] := by
      simp [List.takeWhile_cons, hx]
    rw [List.drop_append_of_le_length (by omega), List.takeWhile_append,
      if_pos heq', hxrun, List.append_nil]
    have hyes : 0 < (rs.drop (k + 1)).length
        ∧ (rs.drop (k + 1)).length < (rs.drop (k + 1) ++ [x]).length := by
      constructor
      · exact List.length_pos.mpr hne
      · rw [List.length_append]
        simp
    rw [if_pos hyes]
  · unfold closedStreakValue
    rw [hr]
    simp only [hs, if_true]
    rw [hall]
    have hno : ¬ (0 < (rs.drop (k + 1)).length
        ∧ (rs.drop (k + 1)).length < (rs.drop (k + 1)).length) := by omega
    rw [if_neg hno]

/-! ### Helpers for the classifier invariant -/

theorem getLastD_drop_eq (rs : List Release) (n : Nat) (hne : rs.drop n ≠ []) :
    ((rs.drop n).getLastD emptyRelease) = rs.getLastD emptyRelease := by
  obtain ⟨y, hy⟩ : ∃ y, (rs.drop n).getLast? = some y := by
    cases hg : (rs.drop n).getLast? with
    | none => exact absurd (List.getLast?_eq_none_iff.mp hg) hne
    | some y => exact ⟨y, rfl⟩
  have hsplit : rs.take n ++ rs.drop n = rs := List.take_append_drop n rs
  have : rs.getLast? = some y := by
    rw [← hsplit, List.getLast?_append, hy]
    rfl
  rw [List.getLastD_eq_getLast?, List.getLastD_eq_getLast?, hy, this]

theorem successAtB_spec (rs : List Release) (k : Nat) (h : successAtB rs k = true) :
    ∃ r, rs.get? k = some r ∧ r.result.isSuccess = true := by
  unfold successAtB at h
  cases hr : rs.get? k with
  | none => rw [hr] at h; exact absurd h (by simp)
  | some r =>
    rw [hr] at h
    simp only [Option.map_some', Option.getD_some] at h
    exact ⟨r, rfl, h⟩

theorem successAtB_getLastD (rs : List Release) (hne : rs ≠ []) :
    successAtB rs (rs.length - 1) = (rs.getLastD emptyRelease).result.isSuccess := by
  obtain ⟨y, hy⟩ : ∃ y, rs.getLast? = some y := by
    cases hg : rs.getLast? with
    | none => exact absurd (List.getLast?_eq_none_iff.mp hg) hne
    | some y => exact ⟨y, rfl⟩
  unfold successAtB
  rw [List.get?_eq_getElem?, ← List.getLast?_eq_getElem?, hy,
    List.getLastD_eq_getLast?, hy]
  rfl

theorem drop_all_failures (rs : List Release) (k₀ : Nat)
    (hfail : ∀ j, k₀ < j → successAtB rs j = false) :
    (rs.drop (k₀ + 1)).takeWhile (fun r => !r.result.isSuccess) = rs.drop (k₀ + 1) := by
  apply List.takeWhile_eq_self_iff.mpr
  intro x hx
  obtain ⟨m, hm⟩ := List.mem_iff_getElem?.mp hx
  have : rs[k₀ + 1 + m]? = some x := by
    rw [← List.getElem?_drop]
    exact hm
  have hflag : successAtB rs (k₀ + 1 + m) = false := hfail _ (by omega)
  unfold successAtB at hflag
  rw [List.get?_eq_getElem?, this] at hflag
  simp only [Option.map_some', Option.getD_some] at hflag
  simp [hflag]

theorem run_lt_of_success_inside (rs : List Release) (k j : Nat) (hkj : k + 1 ≤ j)
    (hj : successAtB rs j = true) :
    ((rs.drop (k + 1)).takeWhile (fun r => !r.result.isSuccess)).length
      < (rs.drop (k + 1)).length := by
  obtain ⟨r, hr, hrs⟩ := successAtB_spec rs j hj
  have hle : ((rs.drop (k + 1)).takeWhile (fun r => !r.result.isSuccess)).length
      ≤ (rs.drop (k + 1)).length :=
    (List.takeWhile_prefix _).length_le
  rcases lt_or_eq_of_le hle with hlt | heq
  · exact hlt
  · exfalso
    have hself : (rs.drop (k + 1)).takeWhile (fun r => !r.result.isSuccess)
        = rs.drop (k + 1) :=
      List.IsPrefix.eq_of_length (List.takeWhile_prefix _) heq
    have hallf := List.takeWhile_eq_self_iff.mp hself
    have hmem : r ∈ rs.drop (k + 1) := by
      apply List.mem_iff_getElem?.mpr
      refine ⟨j - (k + 1), ?_⟩
      rw [List.getElem?_drop]
      rw [List.get?_eq_getElem?] at hr
      rw [show k + 1 + (j - (k + 1)) = j by omega]
      exact hr
    have := hallf r hmem
    rw [hrs] at this
    exact absurd this (by simp)

/-! ### The three shapes one classifier step can take -/

theorem coreStep_eq_of_restored (st : QRState) (it : EmitItem)
    (h : st.isRestored = true) :
    coreStep st it
      = { releases := st.releases ++
            [{ tag := it.tag, date := it.date, leadTimeForChanges := it.lead
               result := { isSuccess := false, timeToRestore := none } }]
          nextSuccessReleaseIndex := st.nextSuccessReleaseIndex
          isRestored := it.sig } := by
  unfold coreStep
  rw [h]
  rfl

theorem coreStep_eq_of_last_success (st : QRState) (it : EmitItem)
    (h1 : st.isRestored = false)
    (h2 : (st.releases.getLastD emptyRelease).result.isSuccess = true) :
    coreStep st it
      = { releases := st.releases ++
            [{ tag := it.tag, date := it.date, leadTimeForChanges := it.lead
               result := { isSuccess := true, timeToRestore := none } }]
          nextSuccessReleaseIndex := (st.releases.length : Int)
          isRestored := it.sig } := by
  unfold coreStep
  rw [h1, h2]
  simp

theorem coreStep_eq_of_last_failure (st : QRState) (it : EmitItem)
    (h1 : st.isRestored = false) (h2 : st.releases ≠ [])
    (h3 : (st.releases.getLastD emptyRelease).result.isSuccess = false) :
    coreStep st it
      = { releases := setTimeToRestoreAt st.releases st.nextSuccessReleaseIndex.toNat
            ((st.releases.getD st.nextSuccessReleaseIndex.toNat emptyRelease).date
              - (st.releases.getLastD emptyRelease).date) ++
            [{ tag := it.tag, date := it.date, leadTimeForChanges := it.lead
               result := { isSuccess := true, timeToRestore := none } }]
          nextSuccessReleaseIndex := (st.releases.length : Int)
          isRestored := it.sig } := by
  have hie : st.releases.isEmpty = false := by simpa using h2
  unfold coreStep
  rw [h1, h3, hie]
  simp [setTimeToRestoreAt_length]

/-- One classifier step preserves the loop invariant. -/
theorem coreStep_QRInv (st : QRState) (it : EmitItem) (h : QRInv st) :
    QRInv (coreStep st it) := by
  obtain ⟨hemp, hnsri, httr⟩ := h
  cases hrst : st.isRestored with
  | true =>
    rw [coreStep_eq_of_restored st it hrst]
    refine ⟨fun habs => absurd habs (by simp), ?_, ?_⟩
    · intro _
      have hrsne : st.releases ≠ [] := by
        intro hnil
        have := (hemp hnil).1
        rw [hrst] at this
        exact absurd this (by simp)
      obtain ⟨k₀, hk0, hklt, hks, hkf⟩ := hnsri hrsne
      refine ⟨k₀, hk0, by simp [List.length_append]; omega, ?_, ?_⟩
      · rw [successAtB_append_lt _ _ _ hklt]
        exact hks
      · intro j hj
        rcases lt_trichotomy j st.releases.length with hlt | heqj | hgt
        · rw [successAtB_append_lt _ _ _ hlt]
          exact hkf j hj
        · subst heqj
          rw [successAtB_append_last]
        · apply successAtB_past
          simp [List.length_append]
          omega
    · intro k
      rcases lt_trichotomy k st.releases.length with hlt | heqk | hgt
      · rw [ttrAt_append_lt _ _ _ hlt,
          closedStreakValue_append_failure _ _ _ hlt rfl]
        exact httr k
      · subst heqk
        rw [ttrAt_append_last, closedStreakValue_append_self]
      · rw [ttrAt_past _ _ (by simp [List.length_append]; omega),
          closedStreakValue_past _ _ (by simp [List.length_append]; omega)]
  | false =>
    cases hlastflag : (st.releases.getLastD emptyRelease).result.isSuccess with
    | true =>
      rw [coreStep_eq_of_last_success st it hrst hlastflag]
      refine ⟨fun habs => absurd habs (by simp), ?_, ?_⟩
      · intro _
        refine ⟨st.releases.length, rfl, by simp [List.length_append], ?_, ?_⟩
        · rw [successAtB_append_last]
        · intro j hj
          apply successAtB_past
          simp [List.length_append]
          omega
      · intro k
        rcases lt_trichotomy k st.releases.length with hlt | heqk | hgt
        · have hnoflip : closedStreakValue (st.releases ++
              [{ tag := it.tag, date := it.date, leadTimeForChanges := it.lead
                 result := { isSuccess := true, timeToRestore := none } }]) k
              = closedStreakValue st.releases k := by
            cases hsk : successAtB st.releases k with
            | false =>
              rw [closedStreakValue_none_of_fail _ _ hsk,
                closedStreakValue_none_of_fail _ _
                  (by rw [successAtB_append_lt _ _ _ hlt]; exact hsk)]
            | true =>
              have hrsne : st.releases ≠ [] := by
                intro hnil
                rw [hnil] at hlt
                simp at hlt
              by_cases hd : st.releases.drop (k + 1) = []
              · exact closedStreakValue_append_adjacent _ _ _ hlt hd rfl
              · apply closedStreakValue_append_bounded _ _ _ hlt
                apply run_lt_of_success_inside st.releases k (st.releases.length - 1)
                · have := List.length_pos.mpr hd
                  rw [List.length_drop] at this
                  omega
                · rw [successAtB_getLastD _ hrsne]
                  exact hlastflag
          rw [ttrAt_append_lt _ _ _ hlt, hnoflip]
          exact httr k
        · subst heqk
          rw [ttrAt_append_last, closedStreakValue_append_self]
        · rw [ttrAt_past _ _ (by simp [List.length_append]; omega),
            closedStreakValue_past _ _ (by simp [List.length_append]; omega)]
    | false =>
      have hrsne : st.releases ≠ [] := by
        intro hnil
        rw [hnil] at hlastflag
        exact absurd hlastflag (by decide)
      obtain ⟨k₀, hk0, hklt, hks, hkf⟩ := hnsri hrsne
      obtain ⟨r₀, hr₀, hr₀s⟩ := successAtB_spec _ _ hks
      have htn : st.nextSuccessReleaseIndex.toNat = k₀ := by
        rw [hk0]
        exact Int.toNat_natCast k₀
      rw [coreStep_eq_of_last_failure st it hrst hrsne hlastflag, htn]
      have hgd : st.releases.getD k₀ emptyRelease = r₀ := by
        rw [List.getD_eq_getElem?_getD, ← List.get?_eq_getElem?, hr₀]
        rfl
      have hlenL : (setTimeToRestoreAt st.releases k₀
          ((st.releases.getD k₀ emptyRelease).date
            - (st.releases.getLastD emptyRelease).date)).length
          = st.releases.length := setTimeToRestoreAt_length ..
      have hmap : (setTimeToRestoreAt st.releases k₀
            ((st.releases.getD k₀ emptyRelease).date
              - (st.releases.getLastD emptyRelease).date) ++
            [({ tag := it.tag, date := it.date, leadTimeForChanges := it.lead
                result := { isSuccess := true, timeToRestore := none } } : Release)]).map flagDate
          = (st.releases ++
            [({ tag := it.tag, date := it.date, leadTimeForChanges := it.lead
                result := { isSuccess := true, timeToRestore := none } } : Release)]).map flagDate := by
        rw [List.map_append, List.map_append, setTimeToRestoreAt_map]
        intro r s
        rfl
      have hk0last : k₀ ≠ st.releases.length - 1 := by
        intro heq
        rw [heq, successAtB_getLastD _ hrsne, hlastflag] at hks
        exact absurd hks (by simp)
      have hdne : st.releases.drop (k₀ + 1) ≠ [] := by
        intro hnil
        have := congrArg List.length hnil
        rw [List.length_drop] at this
        simp at this
        omega
      have hall := drop_all_failures st.releases k₀ hkf
      have hflip := closedStreakValue_append_flip st.releases
        { tag := it.tag, date := it.date, leadTimeForChanges := it.lead
          result := { isSuccess := true, timeToRestore := none } }
        k₀ hklt rfl hall hdne r₀ hr₀ hr₀s
      refine ⟨fun habs => absurd habs (by simp), ?_, ?_⟩
      · intro _
        refine ⟨st.releases.length, rfl,
          by simp [List.length_append, setTimeToRestoreAt_length], ?_, ?_⟩
        · rw [← hlenL, successAtB_append_last]
        · intro j hj
          apply successAtB_past
          simp [List.length_append, setTimeToRestoreAt_length]
          omega
      · intro k
        rcases lt_trichotomy k st.releases.length with hlt | heqk | hgt
        · rw [ttrAt_append_lt _ _ _ (by rw [hlenL]; exact hlt),
            closedStreakValue_congr _ _ hmap k]
          rcases eq_or_ne k k₀ with rfl | hne
          · rw [ttrAt_setTTR_eq st.releases k
              ((st.releases.getD k emptyRelease).date
                - (st.releases.getLastD emptyRelease).date) r₀ hr₀]
            rw [hflip.1, getLastD_drop_eq _ _ hdne, hgd]
          · rw [ttrAt_setTTR_ne _ _ _ _ (fun heq => hne heq.symm)]
            have hnoflip : closedStreakValue (st.releases ++
                [{ tag := it.tag, date := it.date, leadTimeForChanges := it.lead
                   result := { isSuccess := true, timeToRestore := none } }]) k
                = closedStreakValue st.releases k := by
              cases hsk : successAtB st.releases k with
              | false =>
                rw [closedStreakValue_none_of_fail _ _ hsk,
                  closedStreakValue_none_of_fail _ _
                    (by rw [successAtB_append_lt _ _ _ hlt]; exact hsk)]
              | true =>
                have hklt0 : k < k₀ := by
                  rcases lt_trichotomy k k₀ with h1 | h2 | h3
                  · exact h1
                  · exact absurd h2 hne
                  · rw [hkf k h3] at hsk
                    exact absurd hsk (by simp)
                apply closedStreakValue_append_bounded _ _ _ hlt
                exact run_lt_of_success_inside st.releases k k₀ (by omega) hks
            rw [hnoflip]
            exact httr k
        · subst heqk
          rw [← hlenL, ttrAt_append_last, closedStreakValue_append_self]
        · rw [ttrAt_past _ _
              (by simp [List.length_append, setTimeToRestoreAt_length]; omega),
            closedStreakValue_past _ _
              (by simp [List.length_append, setTimeToRestoreAt_length]; omega)]

theorem coreFold_QRInv (st : QRState) (items : List EmitItem) (h : QRInv st) :
    QRInv (coreFold st items) := by
  induction items generalizing st with
  | nil => exact h
  | cons it rest ih =>
    show QRInv (coreFold (coreStep st it) rest)
    exact ih _ (coreStep_QRInv st it h)

theorem QRInv_init :
    QRInv { releases := [], nextSuccessReleaseIndex := -1, isRestored := false } := by
  refine ⟨fun _ => ⟨rfl, rfl⟩, fun habs => absurd rfl habs, fun k => ?_⟩
  rfl

/-- C2, amended: a release's stored `TimeToRestore` matches the
closed-streak characterization exactly — it is `some` iff the release is a
success immediately above (newer than) one or more consecutive failures
that are in turn bounded below by a further emitted success, and the value
is the success's date minus the date of the streak's oldest failure.  In
particular it is set at most once per such recovered streak, never on a
failing release, and a streak with no bounding older success (still open
when processing ends) leaves it absent everywhere. -/
theorem queryReleases_timeToRestore_characterization (trav : Nat → Bool × Int)
    (option : Option ReleaseOption) (sources : List ReleaseSource) (k : Nat) :
    ttrAt (QueryReleases trav option sources) k
      = closedStreakValue (QueryReleases trav option sources) k := by
  rw [QueryReleases_eq_coreFold]
  exact (coreFold_QRInv _ _ QRInv_init).2.2 k

/-! ### The aggregator loop is the chronological transition scan -/

theorem ttrsStep_eq_fail_new (rs : List Release) (st : TTRSState) (i : Nat)
    (x : Release) (hx : rs.get? i = some x) (hxf : x.result.isSuccess = false)
    (hfi : st.failedReleaseIndex < 0) :
    ttrsStep rs st i = { st with failedReleaseIndex := (i : Int) } := by
  unfold ttrsStep
  rw [hx]
  simp [hxf, hfi]

theorem ttrsStep_eq_fail_keep (rs : List Release) (st : TTRSState) (i : Nat)
    (x : Release) (hx : rs.get? i = some x) (hxf : x.result.isSuccess = false)
    (hfi : ¬ st.failedReleaseIndex < 0) :
    ttrsStep rs st i = st := by
  unfold ttrsStep
  rw [hx]
  simp [hxf, hfi]

theorem ttrsStep_eq_succ_skip (rs : List Release) (st : TTRSState) (i : Nat)
    (x : Release) (hx : rs.get? i = some x) (hxs : x.result.isSuccess = true)
    (hfi : st.failedReleaseIndex < 0) :
    ttrsStep rs st i = st := by
  unfold ttrsStep
  rw [hx]
  simp [hxs, hfi]

theorem ttrsStep_eq_succ_close (rs : List Release) (st : TTRSState) (i : Nat)
    (x : Release) (hx : rs.get? i = some x) (hxs : x.result.isSuccess = true)
    (hfi : ¬ st.failedReleaseIndex < 0) :
    ttrsStep rs st i
      = { sum := st.sum + (x.date - dateAtD rs st.failedReleaseIndex.toNat)
          countOfRestoreService := st.countOfRestoreService + 1
          failedReleaseIndex := -1 } := by
  unfold ttrsStep
  rw [hx]
  simp [hxs, hfi]

theorem chronScan_cons_fail_none (x : Release) (l : List Release)
    (hxf : x.result.isSuccess = false) :
    chronScan (x :: l) none = chronScan l (some x) := by
  simp [chronScan, hxf]

theorem chronScan_cons_fail_some (x f : Release) (l : List Release)
    (hxf : x.result.isSuccess = false) :
    chronScan (x :: l) (some f) = chronScan l (some f) := by
  simp [chronScan, hxf]

theorem chronScan_cons_succ_none (x : Release) (l : List Release)
    (hxs : x.result.isSuccess = true) :
    chronScan (x :: l) none = chronScan l none := by
  simp [chronScan, hxs]

theorem chronScan_cons_succ_some (x f : Release) (l : List Release)
    (hxs : x.result.isSuccess = true) :
    chronScan (x :: l) (some f)
      = ((x.date - f.date) :: (chronScan l none).1, (chronScan l none).2) := by
  simp [chronScan, hxs]

theorem pendingOf_neg (rs : List Release) (st : TTRSState)
    (hfi : st.failedReleaseIndex < 0) : pendingOf rs st = none := by
  simp [pendingOf, hfi]

theorem pendingOf_nonneg (rs : List Release) (st : TTRSState)
    (hfi : ¬ st.failedReleaseIndex < 0) :
    pendingOf rs st = rs.get? st.failedReleaseIndex.toNat := by
  simp [pendingOf, hfi]

theorem range_succ_reverse (n : Nat) :
    (List.range (n + 1)).reverse = n :: (List.range n).reverse := by
  rw [List.range_succ, List.reverse_append]
  rfl

theorem take_succ_reverse (rs : List Release) (n : Nat) (x : Release)
    (hx : rs.get? n = some x) :
    (rs.take (n + 1)).reverse = x :: (rs.take n).reverse := by
  rw [List.take_succ, ← List.get?_eq_getElem?, hx, List.reverse_append]
  rfl

theorem ttrs_loop_eq_chron (rs : List Release) :
    ∀ (n : Nat), n ≤ rs.length → ∀ (st : TTRSState), ttrsPendingOK rs st →
    ((List.range n).reverse.foldl (ttrsStep rs) st).sum
        = st.sum + (chronScan ((rs.take n).reverse) (pendingOf rs st)).1.sum
    ∧ ((List.range n).reverse.foldl (ttrsStep rs) st).countOfRestoreService
        = st.countOfRestoreService
          + (chronScan ((rs.take n).reverse) (pendingOf rs st)).1.length
    ∧ pendingOf rs ((List.range n).reverse.foldl (ttrsStep rs) st)
        = (chronScan ((rs.take n).reverse) (pendingOf rs st)).2
    ∧ ttrsPendingOK rs ((List.range n).reverse.foldl (ttrsStep rs) st) := by
  intro n
  induction n with
  | zero =>
    intro _ st hok
    exact ⟨by simp [chronScan], by simp [chronScan], by simp [chronScan], hok⟩
  | succ n ih =>
    intro hn st hok
    have hlt : n < rs.length := by omega
    obtain ⟨x, hx⟩ : ∃ x, rs.get? n = some x :=
      ⟨rs.get ⟨n, hlt⟩, List.get?_eq_some.mpr ⟨hlt, rfl⟩⟩
    rw [range_succ_reverse, take_succ_reverse rs n x hx, List.foldl_cons]
    by_cases hfi : st.failedReleaseIndex < 0
    · rw [pendingOf_neg rs st hfi]
      cases hxs : x.result.isSuccess with
      | false =>
        rw [ttrsStep_eq_fail_new rs st n x hx hxs hfi,
          chronScan_cons_fail_none x _ hxs]
        have hok' : ttrsPendingOK rs { st with failedReleaseIndex := (n : Int) } := by
          right
          refine ⟨x, ?_⟩
          show rs.get? ((n : Int)).toNat = some x
          rw [Int.toNat_natCast]
          exact hx
        have hp : pendingOf rs { st with failedReleaseIndex := (n : Int) } = some x := by
          rw [pendingOf_nonneg _ _ (show ¬ ((n : Int) < 0) by omega)]
          show rs.get? ((n : Int)).toNat = some x
          rw [Int.toNat_natCast]
          exact hx
        have hrec := ih (by omega) _ hok'
        rw [hp] at hrec
        exact hrec
      | true =>
        rw [ttrsStep_eq_succ_skip rs st n x hx hxs hfi,
          chronScan_cons_succ_none x _ hxs]
        have hrec := ih (by omega) st hok
        rw [pendingOf_neg rs st hfi] at hrec
        exact hrec
    · obtain ⟨f, hf⟩ : ∃ f, rs.get? st.failedReleaseIndex.toNat = some f := by
        cases hok with
        | inl hl => exact absurd hl hfi
        | inr hr => exact hr
      have hpf : pendingOf rs st = some f := by
        rw [pendingOf_nonneg rs st hfi]
        exact hf
      rw [hpf]
      cases hxs : x.result.isSuccess with
      | false =>
        rw [ttrsStep_eq_fail_keep rs st n x hx hxs hfi,
          chronScan_cons_fail_some x f _ hxs]
        have hrec := ih (by omega) st hok
        rw [hpf] at hrec
        exact hrec
      | true =>
        rw [ttrsStep_eq_succ_close rs st n x hx hxs hfi,
          chronScan_cons_succ_some x f _ hxs]
        have hdate : dateAtD rs st.failedReleaseIndex.toNat = f.date := by
          unfold dateAtD
          rw [hf]
          rfl
        have hok' : ttrsPendingOK rs
            { sum := st.sum + (x.date - dateAtD rs st.failedReleaseIndex.toNat)
              countOfRestoreService := st.countOfRestoreService + 1
              failedReleaseIndex := -1 } := by
          left
          norm_num
        have hp' : pendingOf rs
            { sum := st.sum + (x.date - dateAtD rs st.failedReleaseIndex.toNat)
              countOfRestoreService := st.countOfRestoreService + 1
              failedReleaseIndex := -1 } = none :=
          pendingOf_neg _ _ (by norm_num)
        have hrec := ih (by omega) _ hok'
        rw [hp'] at hrec
        obtain ⟨hs1, hs2, hs3, hs4⟩ := hrec
        refine ⟨?_, ?_, hs3, hs4⟩
        · rw [hs1, hdate]
          show st.sum + (x.date - f.date) + _ = st.sum + ((x.date - f.date) :: _).sum
          rw [List.sum_cons]
          omega
        · rw [hs2]
          show st.countOfRestoreService + 1 + _
            = st.countOfRestoreService + ((x.date - f.date) :: _).length
          rw [List.length_cons]
          omega

/-- C6: `getTimeToRestoreServices` equals the mean — integer division, as
`time.Duration` arithmetic is integral nanoseconds — over all closed
failure-to-success transitions found by scanning the release sequence
oldest to newest, of the restoring success's date minus the bounding
oldest failure's date, and equals 0 when no such transition exists. -/
theorem getTimeToRestoreServices_eq_transitions_mean (rs : List Release) :
    getTimeToRestoreServices rs
      = if restoreTransitions rs = [] then 0
        else Int.tdiv (restoreTransitions rs).sum ((restoreTransitions rs).length : Int) := by
  have h := ttrs_loop_eq_chron rs rs.length le_rfl
    { sum := 0, countOfRestoreService := 0, failedReleaseIndex := -1 }
    (by left; norm_num)
  rw [List.take_length,
    pendingOf_neg _ _ (show (-1 : Int) < 0 by norm_num)] at h
  obtain ⟨hs1, hs2, -, -⟩ := h
  simp only [getTimeToRestoreServices, restoreTransitions]
  rw [hs1, hs2]
  cases hts : (chronScan rs.reverse none).1 with
  | nil => simp
  | cons a l => simp [List.length_cons]

/-! ### Relating the chronological scan to the stored restore times -/

theorem chronScan_append (l l2 : List Release) (p : Option Release) :
    chronScan (l ++ l2) p
      = ((chronScan l p).1 ++ (chronScan l2 (chronScan l p).2).1,
         (chronScan l2 (chronScan l p).2).2) := by
  induction l generalizing p with
  | nil => rfl
  | cons r rest ih =>
    cases p with
    | none =>
      cases hs : r.result.isSuccess with
      | true =>
        rw [List.cons_append, chronScan_cons_succ_none r _ hs,
          chronScan_cons_succ_none r _ hs, ih]
      | false =>
        rw [List.cons_append, chronScan_cons_fail_none r _ hs,
          chronScan_cons_fail_none r _ hs, ih]
    | some f =>
      cases hs : r.result.isSuccess with
      | true =>
        rw [List.cons_append, chronScan_cons_succ_some r f _ hs,
          chronScan_cons_succ_some r f _ hs, ih]
        rfl
      | false =>
        rw [List.cons_append, chronScan_cons_fail_some r f _ hs,
          chronScan_cons_fail_some r f _ hs, ih]

theorem ttrAt_eq_bind (rs : List Release) (k : Nat) :
    ttrAt rs k = (rs.get? k).bind (fun r => r.result.timeToRestore) := by
  unfold ttrAt
  cases rs.get? k <;> rfl

theorem filterMap_get?_bind (l : List Release) (g : Release → Option Int) :
    (List.range l.length).filterMap (fun k => (l.get? k).bind g) = l.filterMap g := by
  induction l with
  | nil => rfl
  | cons a tl ih =>
    rw [List.length_cons, List.range_succ_eq_map, List.filterMap_cons]
    have hc : (fun k => (((a :: tl).get? k).bind g)) ∘ Nat.succ
        = fun k => ((tl.get? k).bind g) := by
      funext k
      rfl
    rw [List.filterMap_map, hc, ih, List.filterMap_cons]
    rfl

theorem ttrValues_eq_filterMap (rs : List Release)
    (h : ∀ k, ttrAt rs k = closedStreakValue rs k) :
    ttrValues rs = rs.filterMap (fun r => r.result.timeToRestore) := by
  unfold ttrValues
  rw [← filterMap_get?_bind rs (fun r => r.result.timeToRestore)]
  apply List.filterMap_congr
  intro k _
  rw [← ttrAt_eq_bind, h k]

theorem getLastD_irrel (l : List Release) (hne : l ≠ []) (d d2 : Release) :
    l.getLastD d = l.getLastD d2 := by
  obtain ⟨y, hy⟩ : ∃ y, l.getLast? = some y := by
    cases hg : l.getLast? with
    | none => exact absurd (List.getLast?_eq_none_iff.mp hg) hne
    | some y => exact ⟨y, rfl⟩
  rw [List.getLastD_eq_getLast?, List.getLastD_eq_getLast?, hy]
  rfl

theorem leadingFailures_cons_succ (x : Release) (l : List Release)
    (hxs : x.result.isSuccess = true) : leadingFailures (x :: l) = 0 := by
  unfold leadingFailures
  rw [List.takeWhile_cons]
  simp [hxs]

theorem leadingFailures_cons_fail (x : Release) (l : List Release)
    (hxf : x.result.isSuccess = false) :
    leadingFailures (x :: l) = leadingFailures l + 1 := by
  unfold leadingFailures
  rw [List.takeWhile_cons]
  simp [hxf]

theorem pendingAfter_cons_succ (x : Release) (l : List Release)
    (hxs : x.result.isSuccess = true) : pendingAfter (x :: l) = none := by
  unfold pendingAfter
  rw [leadingFailures_cons_succ x l hxs]
  rfl

theorem pendingAfter_cons_fail (x : Release) (l : List Release)
    (hxf : x.result.isSuccess = false) :
    pendingAfter (x :: l)
      = if leadingFailures l = 0 then some x else pendingAfter l := by
  unfold pendingAfter
  rw [leadingFailures_cons_fail x l hxf]
  cases hz : leadingFailures l with
  | zero => simp
  | succ m =>
    simp only [Nat.succ_ne_zero, if_false, Nat.add_sub_cancel]
    rfl

theorem takeWhile_get?_lt (p : Release → Bool) (l : List Release) (i : Nat)
    (hi : i < (l.takeWhile p).length) :
    (l.takeWhile p).get? i = l.get? i
    ∧ ∃ a, l.get? i = some a ∧ p a = true := by
  induction l generalizing i with
  | nil => simp at hi
  | cons a tl ih =>
    cases hp : p a with
    | false =>
      rw [List.takeWhile_cons_of_neg (by simp [hp])] at hi
      simp at hi
    | true =>
      rw [List.takeWhile_cons_of_pos hp] at hi ⊢
      cases i with
      | zero => exact ⟨rfl, a, rfl, hp⟩
      | succ i' =>
        have := ih i' (by simpa using hi)
        exact ⟨this.1, this.2⟩

theorem leadingFailures_le (l : List Release) : leadingFailures l ≤ l.length :=
  (List.takeWhile_prefix _).length_le

theorem pendingAfter_eq_none (l : List Release) (h : pendingAfter l = none) :
    leadingFailures l = 0 := by
  by_contra hne
  obtain ⟨m, hm⟩ : ∃ m, leadingFailures l = m + 1 := by
    cases hz : leadingFailures l with
    | zero => exact absurd hz hne
    | succ m => exact ⟨m, rfl⟩
  have hmlt : m < l.length := by
    have := leadingFailures_le l
    omega
  unfold pendingAfter at h
  rw [hm] at h
  simp only [Nat.succ_ne_zero, if_false, Nat.add_sub_cancel] at h
  have : ∃ hm2 : m < l.length, l.get ⟨m, hm2⟩ = l.get ⟨m, hmlt⟩ := ⟨hmlt, rfl⟩
  rw [List.get?_eq_some.mpr ⟨hmlt, rfl⟩] at h
  exact absurd h (by simp)

theorem pendingAfter_eq_some (l : List Release) (f : Release)
    (h : pendingAfter l = some f) :
    leadingFailures l ≠ 0 ∧ l.get? (leadingFailures l - 1) = some f := by
  unfold pendingAfter at h
  by_cases hz : leadingFailures l = 0
  · rw [if_pos hz] at h
    exact absurd h (by simp)
  · rw [if_neg hz] at h
    exact ⟨hz, h⟩

theorem closedStreakValue_cons_zero_fail (x : Release) (l : List Release)
    (hxf : x.result.isSuccess = false) :
    closedStreakValue (x :: l) 0 = none := by
  apply closedStreakValue_none_of_fail
  unfold successAtB
  rw [List.get?_cons_zero]
  simp [hxf]

theorem closedStreakValue_cons_zero_succ (x : Release) (l : List Release)
    (hxs : x.result.isSuccess = true) :
    closedStreakValue (x :: l) 0
      = if 0 < leadingFailures l ∧ leadingFailures l < l.length
        then some (x.date
          - ((l.takeWhile (fun r => !r.result.isSuccess)).getLastD emptyRelease).date)
        else none := by
  unfold closedStreakValue leadingFailures
  rw [List.get?_cons_zero]
  simp only [hxs, if_true, List.drop_succ_cons, List.drop_zero]

theorem ttrValues_cons_none (x : Release) (l : List Release)
    (h : closedStreakValue (x :: l) 0 = none) :
    ttrValues (x :: l) = ttrValues l := by
  unfold ttrValues
  rw [List.length_cons, List.range_succ_eq_map, List.filterMap_cons, h,
    List.filterMap_map]
  have hc : closedStreakValue (x :: l) ∘ Nat.succ = closedStreakValue l :=
    funext fun k => rfl
  rw [hc]

theorem ttrValues_cons_some (x : Release) (l : List Release) (v : Int)
    (h : closedStreakValue (x :: l) 0 = some v) :
    ttrValues (x :: l) = v :: ttrValues l := by
  unfold ttrValues
  rw [List.length_cons, List.range_succ_eq_map, List.filterMap_cons, h,
    List.filterMap_map]
  have hc : closedStreakValue (x :: l) ∘ Nat.succ = closedStreakValue l :=
    funext fun k => rfl
  rw [hc]

theorem getLastD_eq_get?_last (L : List Release) (m : Nat) (hL : L.length = m + 1)
    (f : Release) (hf : L.get? m = some f) : L.getLastD emptyRelease = f := by
  rw [List.getLastD_eq_getLast?, List.getLast?_eq_getElem?, hL]
  rw [← List.get?_eq_getElem?]
  simp only [Nat.add_sub_cancel]
  rw [hf]
  rfl

theorem leadingFailures_lt_of_last_success (l : List Release) (hne : l ≠ [])
    (hlast : (l.getLastD emptyRelease).result.isSuccess = true) :
    leadingFailures l < l.length := by
  have hle := leadingFailures_le l
  rcases lt_or_eq_of_le hle with hlt | heq
  · exact hlt
  · exfalso
    have hpos : 0 < l.length := List.length_pos.mpr hne
    have hi : l.length - 1 < (l.takeWhile (fun r => !r.result.isSuccess)).length := by
      unfold leadingFailures at heq
      omega
    obtain ⟨-, a, ha, hfa⟩ := takeWhile_get?_lt _ l (l.length - 1) hi
    have hsucc := successAtB_getLastD l hne
    rw [hlast] at hsucc
    unfold successAtB at hsucc
    rw [ha] at hsucc
    simp only [Option.map_some', Option.getD_some] at hsucc
    rw [hsucc] at hfa
    simp at hfa

/-- On a release list whose oldest element is a success (so every failure
run is bounded below by a success), the chronological transition scan
finds exactly the closed-streak values, oldest streak first, and ends
holding the oldest failure of the newest-end run. -/
theorem chron_eq_ttrValues (rs : List Release)
    (hlast : rs = [] ∨ (rs.getLastD emptyRelease).result.isSuccess = true) :
    chronScan rs.reverse none = ((ttrValues rs).reverse, pendingAfter rs) := by
  induction rs with
  | nil => rfl
  | cons x rs' ih =>
    have hlast2 : rs' = [] ∨ (rs'.getLastD emptyRelease).result.isSuccess = true := by
      cases hrs : rs' with
      | nil => left; rfl
      | cons y tl =>
        right
        rcases hlast with h0 | h1
        · exact absurd h0 (by simp)
        · rw [hrs] at h1
          rw [List.getLastD_cons] at h1
          rw [getLastD_irrel (y :: tl) (by simp) x emptyRelease] at h1
          exact h1
    have hih := ih hlast2
    rw [List.reverse_cons, chronScan_append rs'.reverse [x] none, hih]
    dsimp only
    cases hxs : x.result.isSuccess with
    | true =>
      cases hpa : pendingAfter rs' with
      | none =>
        have hl0 := pendingAfter_eq_none rs' hpa
        rw [chronScan_cons_succ_none x [] hxs]
        rw [ttrValues_cons_none x rs'
          (by rw [closedStreakValue_cons_zero_succ x rs' hxs, hl0]; simp)]
        rw [pendingAfter_cons_succ x rs' hxs]
        simp [chronScan]
      | some f =>
        obtain ⟨hl0, hgf⟩ := pendingAfter_eq_some rs' f hpa
        have hrs'ne : rs' ≠ [] := by
          intro h0
          rw [h0] at hl0
          exact hl0 rfl
        have hlastf : (rs'.getLastD emptyRelease).result.isSuccess = true := by
          rcases hlast2 with h0 | h1
          · exact absurd h0 hrs'ne
          · exact h1
        have hllt := leadingFailures_lt_of_last_success rs' hrs'ne hlastf
        obtain ⟨m, hm⟩ : ∃ m, leadingFailures rs' = m + 1 := by
          cases hz : leadingFailures rs' with
          | zero => exact absurd hz hl0
          | succ m => exact ⟨m, rfl⟩
        have hrunlen : (rs'.takeWhile (fun r => !r.result.isSuccess)).length = m + 1 := by
          unfold leadingFailures at hm
          exact hm
        have hrunget : (rs'.takeWhile (fun r => !r.result.isSuccess)).get? m
            = rs'.get? m :=
          (takeWhile_get?_lt _ rs' m (by omega)).1
        have hglast : ((rs'.takeWhile (fun r => !r.result.isSuccess)).getLastD
            emptyRelease) = f := by
          apply getLastD_eq_get?_last _ m hrunlen
          rw [hrunget]
          rw [hm] at hgf
          simpa using hgf
        have hclosed : closedStreakValue (x :: rs') 0 = some (x.date - f.date) := by
          rw [closedStreakValue_cons_zero_succ x rs' hxs,
            if_pos ⟨by omega, hllt⟩, hglast]
        rw [chronScan_cons_succ_some x f [] hxs]
        rw [ttrValues_cons_some x rs' (x.date - f.date) hclosed]
        rw [pendingAfter_cons_succ x rs' hxs, List.reverse_cons]
        rfl
    | false =>
      have hrs'ne : rs' ≠ [] := by
        intro h0
        rcases hlast with h1 | h2
        · exact absurd h1 (by simp)
        · rw [h0] at h2
          rw [List.getLastD_cons] at h2
          have : ([] : List Release).getLastD x = x := rfl
          rw [this, hxs] at h2
          exact absurd h2 (by simp)
      rw [ttrValues_cons_none x rs' (closedStreakValue_cons_zero_fail x rs' hxs)]
      rw [pendingAfter_cons_fail x rs' hxs]
      cases hpa : pendingAfter rs' with
      | none =>
        have hl0 := pendingAfter_eq_none rs' hpa
        rw [chronScan_cons_fail_none x [] hxs]
        rw [if_pos hl0]
        simp [chronScan]
      | some f =>
        obtain ⟨hl0, -⟩ := pendingAfter_eq_some rs' f hpa
        rw [chronScan_cons_fail_some x f [] hxs]
        rw [if_neg hl0]
        simp [chronScan]

theorem ttrs_eq_stored_mean_of_last_success (rs : List Release)
    (hchar : ∀ k, ttrAt rs k = closedStreakValue rs k)
    (h : rs = [] ∨ (rs.getLastD emptyRelease).result.isSuccess = true) :
    getTimeToRestoreServices rs
      = if rs.filterMap (fun r => r.result.timeToRestore) = [] then 0
        else Int.tdiv (rs.filterMap (fun r => r.result.timeToRestore)).sum
          ((rs.filterMap (fun r => r.result.timeToRestore)).length : Int) := by
  have hvals := ttrValues_eq_filterMap rs hchar
  have hchron := chron_eq_ttrValues rs h
  have h6 := ttrs_loop_eq_chron rs rs.length le_rfl
    { sum := 0, countOfRestoreService := 0, failedReleaseIndex := -1 }
    (by left; norm_num)
  rw [List.take_length, pendingOf_neg _ _ (show (-1 : Int) < 0 by norm_num)] at h6
  obtain ⟨hs1, hs2, -, -⟩ := h6
  simp only [getTimeToRestoreServices]
  rw [hs1, hs2]
  have htr : (chronScan rs.reverse none).1
      = (rs.filterMap (fun r => r.result.timeToRestore)).reverse := by
    rw [hchron]
    dsimp only
    rw [hvals]
  rw [htr]
  cases hts : rs.filterMap (fun r => r.result.timeToRestore) with
  | nil => simp
  | cons a l =>
    simp [List.sum_reverse, List.length_reverse]
    rw [Int.add_comm]

/-- C10, amended: whenever the oldest emitted release is a success (so
every failure streak is anchored below by an emitted success), the
aggregate `getTimeToRestoreServices` equals the integer mean of the
per-release `TimeToRestore` durations the classifier stored; when the
oldest releases are failures the aggregator additionally counts that
unanchored streak, which the classifier does not record. -/
theorem queryReleases_aggregate_matches_stored (trav : Nat → Bool × Int)
    (option : Option ReleaseOption) (sources : List ReleaseSource)
    (h : QueryReleases trav option sources = []
      ∨ ((QueryReleases trav option sources).getLastD
          emptyRelease).result.isSuccess = true) :
    getTimeToRestoreServices (QueryReleases trav option sources)
      = if (QueryReleases trav option sources).filterMap
            (fun r => r.result.timeToRestore) = [] then 0
        else Int.tdiv
          ((QueryReleases trav option sources).filterMap
            (fun r => r.result.timeToRestore)).sum
          (((QueryReleases trav option sources).filterMap
            (fun r => r.result.timeToRestore)).length : Int) := by
  apply ttrs_eq_stored_mean_of_last_success _ _ h
  rw [QueryReleases_eq_coreFold]
  exact (coreFold_QRInv _ _ QRInv_init).2.2

/-- C10, amended, witness: on a success-failure-success output both the
aggregate and the stored mean are 10. -/
theorem queryReleases_aggregate_matches_stored_witness :
    (QueryReleases travFixAtZero none sourcesThree = []
      ∨ ((QueryReleases travFixAtZero none sourcesThree).getLastD
          emptyRelease).result.isSuccess = true)
    ∧ getTimeToRestoreServices (QueryReleases travFixAtZero none sourcesThree)
        = if (QueryReleases travFixAtZero none sourcesThree).filterMap
              (fun r => r.result.timeToRestore) = [] then 0
          else Int.tdiv
            ((QueryReleases travFixAtZero none sourcesThree).filterMap
              (fun r => r.result.timeToRestore)).sum
            (((QueryReleases travFixAtZero none sourcesThree).filterMap
              (fun r => r.result.timeToRestore)).length : Int) :=
  ⟨Or.inr (by decide),
   queryReleases_aggregate_matches_stored travFixAtZero none sourcesThree
     (Or.inr (by decide))⟩
